import Mathlib

/-
  Verification of the orchestration engine of the `agents` repository.

  The development shallowly embeds, in Lean, the parts of the code base that
  the specification talks about:

  * a model of JSON values together with a serializer and a strict
    recursive-descent reader, standing for the `json.dumps` / `json.loads`
    fragment that the code exercises (integers for JSON numbers; string
    escaping is modelled for the escapes the serializer emits; `\uXXXX`
    escapes and floats are outside the modelled fragment),
  * `LLMClient._extract_json` and `LLMClient._ensure_object`
    (src/agentic/src/llm.py),
  * `ContextManager` entry bookkeeping: `add_system_prompt`,
    `add_user_request`, `add_assistant_response`, `add_tool_result`,
    `add_thought`, `compress_if_needed`, `clear`, `get_messages`
    (src/src/context.py).  Wall-clock timestamps, file persistence and the
    `metadata` dict of entries are not read by any property below and are
    omitted from the entry model,
  * the SubAgent executors `ToolSubAgent.execute`, `ChainSubAgent.execute`,
    `SkillSubAgent.execute` (src/src/subagents/).  Network and tool effects
    are supplied by explicit behaviour arguments,
  * `SkillContextManager.filter_allowed_tools` (src/src/skills/context.py)
    and `SkillManager.execute_skill` (src/src/skills/manager.py); the LLM
    responses that drive the inner loop are supplied by a script argument,
  * the progress-check portion of `MinimalAgent.run` (src/src/agent.py).
-/

namespace AgentsRepo

/-- Model of a JSON value as produced by the `json` standard library on the
fragment the code manipulates.  Numbers are integers; object members keep
their textual order (the reader never merges duplicate keys because the
theorems below only feed it serializer output and concrete literals). -/
inductive Json where
  | null
  | bool (b : Bool)
  | num (n : Int)
  | str (s : List Char)
  | arr (elems : List Json)
  | obj (members : List (List Char × Json))

/-- Decimal digit character, as emitted by the serializer (only used with
arguments below 10). -/
def digitChar (d : Nat) : Char :=
  match d with
  | 0 => '0' | 1 => '1' | 2 => '2' | 3 => '3' | 4 => '4'
  | 5 => '5' | 6 => '6' | 7 => '7' | 8 => '8' | _ => '9'

/-- Decimal digits of a natural number, most significant first.  The first
argument is fuel; it is consumed once per emitted digit, so `n + 1` is always
enough for `n`. -/
def natDigitsAux : Nat → Nat → List Char → List Char
  | 0, _, acc => acc
  | fuel + 1, n, acc =>
    if n < 10 then digitChar n :: acc
    else natDigitsAux fuel (n / 10) (digitChar (n % 10) :: acc)

/-- Decimal representation of a natural number. -/
def natChars (n : Nat) : List Char := natDigitsAux (n + 1) n []

/-- Decimal representation of an integer, as `json.dumps` prints it. -/
def intChars : Int → List Char
  | .ofNat n => natChars n
  | .negSucc m => '-' :: natChars (m + 1)

/-- String-body escaping performed by `json.dumps` on the modelled fragment:
quotes and backslashes get a backslash. -/
def escapeChars : List Char → List Char
  | [] => []
  | c :: cs =>
    if c = '"' ∨ c = '\\' then '\\' :: c :: escapeChars cs
    else c :: escapeChars cs

/-- Serialized JSON string: quote, escaped body, quote. -/
def dumpsStrChars (s : List Char) : List Char := '"' :: (escapeChars s ++ ['"'])

mutual

/-- Serialization of a JSON value with the default `json.dumps` separators
`", "` and `": "`. -/
def dumpsVal : Json → List Char
  | .null => 'n' :: ['u', 'l', 'l']
  | .bool true => 't' :: ['r', 'u', 'e']
  | .bool false => 'f' :: ['a', 'l', 's', 'e']
  | .num n => intChars n
  | .str s => dumpsStrChars s
  | .arr xs => '[' :: (dumpsElems xs ++ [']'])
  | .obj ms => '{' :: (dumpsMembers ms ++ ['}'])

/-- Serialization of the element list of a JSON array, `", "`-separated. -/
def dumpsElems : List Json → List Char
  | [] => []
  | [x] => dumpsVal x
  | x :: y :: xs => dumpsVal x ++ ',' :: ' ' :: dumpsElems (y :: xs)

/-- Serialization of the member list of a JSON object, `", "`-separated,
with `": "` between key and value. -/
def dumpsMembers : List (List Char × Json) → List Char
  | [] => []
  | [(k, v)] => dumpsStrChars k ++ ':' :: ' ' :: dumpsVal v
  | (k, v) :: m :: ms =>
    dumpsStrChars k ++ ':' :: ' ' :: dumpsVal v ++ ',' :: ' ' :: dumpsMembers (m :: ms)

end

/-- Whitespace accepted between JSON tokens (` \t\n\r`, as in the `json`
module). -/
def isJsonWs (c : Char) : Bool :=
  c = ' ' ∨ c = '\t' ∨ c = '\n' ∨ c = '\r'

/-- Drop leading JSON whitespace. -/
def skipWs (cs : List Char) : List Char := cs.dropWhile isJsonWs

/-- Unescape one character after a backslash inside a JSON string (the
`\uXXXX` form is outside the modelled fragment). -/
def unescapeChar : Char → Option Char
  | '"' => some ('"')
  | '\\' => some ('\\')
  | '/' => some ('/')
  | 'n' => some ('\n')
  | 't' => some ('\t')
  | 'r' => some ('\r')
  | 'b' => some (Char.ofNat 8)
  | 'f' => some (Char.ofNat 12)
  | _ => none

/-- Read the body of a JSON string after the opening quote; returns the
decoded body and the input after the closing quote. -/
def parseStrBody : List Char → Option (List Char × List Char)
  | [] => none
  | c :: rest =>
    if c = '"' then some ([], rest)
    else if c = '\\' then
      match rest with
      | [] => none
      | e :: rest2 =>
        match unescapeChar e with
        | none => none
        | some u => (parseStrBody rest2).map (fun p => (u :: p.1, p.2))
    else (parseStrBody rest).map (fun p => (c :: p.1, p.2))

/-- Numeric value of a digit list (digits are mapped through their code
points, as the reader computes it). -/
def digitsVal (ds : List Char) : Nat :=
  ds.foldl (fun a c => a * 10 + (c.toNat - 48)) 0

/-- Read a nonempty run of decimal digits; returns its value and the rest. -/
def parseNatChars (cs : List Char) : Option (Nat × List Char) :=
  let ds := cs.takeWhile Char.isDigit
  if ds.isEmpty then none
  else some (digitsVal ds, cs.dropWhile Char.isDigit)

mutual

/-- Recursive-descent reader for one JSON value, fuelled.  Every recursive
call into a nested value or into the tail of a list spends one unit of fuel,
so any fuel above the length of the consumed text is sufficient. -/
def parseValue : Nat → List Char → Option (Json × List Char)
  | 0, _ => none
  | fuel + 1, cs =>
    match skipWs cs with
    | [] => none
    | c :: rest =>
      if c = '{' then
        match skipWs rest with
        | [] => none
        | c2 :: r2 =>
          if c2 = '}' then some (.obj [], r2)
          else
            match parseMembers fuel rest with
            | some (ms, r3) => some (.obj ms, r3)
            | none => none
      else if c = '[' then
        match skipWs rest with
        | [] => none
        | c2 :: r2 =>
          if c2 = ']' then some (.arr [], r2)
          else
            match parseElems fuel rest with
            | some (xs, r3) => some (.arr xs, r3)
            | none => none
      else if c = '"' then
        match parseStrBody rest with
        | some (s, r2) => some (.str s, r2)
        | none => none
      else if c = 't' then
        match rest with
        | 'r' :: 'u' :: 'e' :: r2 => some (.bool true, r2)
        | _ => none
      else if c = 'f' then
        match rest with
        | 'a' :: 'l' :: 's' :: 'e' :: r2 => some (.bool false, r2)
        | _ => none
      else if c = 'n' then
        match rest with
        | 'u' :: 'l' :: 'l' :: r2 => some (.null, r2)
        | _ => none
      else if c = '-' then
        match parseNatChars rest with
        | some (n, r2) => some (.num (-(n : Int)), r2)
        | none => none
      else if c.isDigit then
        match parseNatChars (c :: rest) with
        | some (n, r2) => some (.num (n : Int), r2)
        | none => none
      else none

/-- Read the nonempty element list of a JSON array together with the closing
bracket. -/
def parseElems : Nat → List Char → Option (List Json × List Char)
  | 0, _ => none
  | fuel + 1, cs =>
    match parseValue fuel cs with
    | none => none
    | some (v, r) =>
      match skipWs r with
      | [] => none
      | c :: r2 =>
        if c = ']' then some ([v], r2)
        else if c = ',' then
          match parseElems fuel r2 with
          | none => none
          | some (vs, r3) => some (v :: vs, r3)
        else none

/-- Read the nonempty member list of a JSON object together with the closing
brace. -/
def parseMembers : Nat → List Char → Option (List (List Char × Json) × List Char)
  | 0, _ => none
  | fuel + 1, cs =>
    match skipWs cs with
    | [] => none
    | c :: rest =>
      if c = '"' then
        match parseStrBody rest with
        | none => none
        | some (k, r) =>
          match skipWs r with
          | [] => none
          | c2 :: r2 =>
            if c2 = ':' then
              match parseValue fuel r2 with
              | none => none
              | some (v, r3) =>
                match skipWs r3 with
                | [] => none
                | c3 :: r4 =>
                  if c3 = '}' then some ([(k, v)], r4)
                  else if c3 = ',' then
                    match parseMembers fuel r4 with
                    | none => none
                    | some (ms, r5) => some ((k, v) :: ms, r5)
                  else none
            else none
      else none

end

/-- Model of `json.loads` on the fragment above: read one value, then require
only whitespace to remain. -/
def loads (cs : List Char) : Option Json :=
  match parseValue (cs.length + 1) cs with
  | some (v, rest) => if (skipWs rest).isEmpty then some v else none
  | none => none

/-- Convenience: characters of a string literal. -/
def tl (s : String) : List Char := s.toList

/-- Text whose first character is not a decimal digit (or that is empty); a
serialized number followed by such text reads back unambiguously. -/
def noDigitHead (cs : List Char) : Prop :=
  ∀ c, cs.head? = some c → c.isDigit = false

/-! Model of `LLMClient._extract_json` (src/agentic/src/llm.py).  Texts are
lists of characters; the backtick character is written `Char.ofNat 96`. -/

/-- The backtick character. -/
def btk : Char := Char.ofNat 96

/-- Whether a text starts with three consecutive backticks. -/
def triplePrefix : List Char → Bool
  | a :: b :: c :: _ => a = btk && b = btk && c = btk
  | _ => false

/-- Index of the first occurrence of three consecutive backticks. -/
def findFirstTriple : List Char → Option Nat
  | [] => none
  | c1 :: rest =>
    match rest with
    | c2 :: c3 :: _ =>
      if c1 = btk ∧ c2 = btk ∧ c3 = btk then some 0
      else (findFirstTriple rest).map (· + 1)
    | _ => none

/-- Whether a text contains three consecutive backticks anywhere. -/
def hasTriple (cs : List Char) : Bool := (findFirstTriple cs).isSome

/-- Case-insensitive check for a leading `json` tag, as the fenced-block
regular expression matches it under `re.IGNORECASE`. -/
def ciPrefixJson : List Char → Bool
  | c1 :: c2 :: c3 :: c4 :: _ =>
    c1.toLower = 'j' && c2.toLower = 's' && c3.toLower = 'o' && c4.toLower = 'n'
  | _ => false

/-- Whitespace class of the regular-expression `\s` and of `str.strip`. -/
def isRegexWs (c : Char) : Bool :=
  c = ' ' ∨ c = '\t' ∨ c = '\n' ∨ c = '\r' ∨ c = Char.ofNat 11 ∨ c = Char.ofNat 12

/-- Length of the leading whitespace run. -/
def wsRunLen (cs : List Char) : Nat := (cs.takeWhile isRegexWs).length

/-- Capture group of the first match of the fenced-block pattern
(three backticks, an optional case-insensitive `json` tag, greedy `\s*`, a
lazy any-character group, three backticks).  The leftmost match starts at the
first backtick triple: a later pair of triples would also give a triple after
that first one.  The regex engine falls back on not consuming the `json` tag
only when no closing triple follows it; since the tag contains no backtick,
that fallback can never produce a match either, so it is not modelled. -/
def findFence (cs : List Char) : Option (List Char) :=
  match findFirstTriple cs with
  | none => none
  | some i =>
    let after := cs.drop (i + 3)
    let r := if ciPrefixJson after then after.drop 4 else after
    match findFirstTriple r with
    | none => none
    | some j =>
      let s := min (wsRunLen r) j
      some ((r.drop s).take (j - s))

/-- Python `str.strip()` on the modelled whitespace class. -/
def pyStrip (cs : List Char) : List Char :=
  ((cs.dropWhile isRegexWs).reverse.dropWhile isRegexWs).reverse

/-- Stack-based scan for balanced top-level brace spans, as in strategy 3 of
`_extract_json`: push on `{`, pop on `}` when the stack is nonempty, record a
candidate `(start, end)` when the stack empties. -/
def braceSpansAux : List Char → Nat → List Nat → List (Nat × Nat)
  | [], _, _ => []
  | c :: rest, i, stack =>
    if c = '{' then braceSpansAux rest (i + 1) (i :: stack)
    else if c = '}' then
      match stack with
      | [] => braceSpansAux rest (i + 1) []
      | s :: stack2 =>
        if stack2.isEmpty then (s, i) :: braceSpansAux rest (i + 1) stack2
        else braceSpansAux rest (i + 1) stack2
    else braceSpansAux rest (i + 1) stack

/-- Brace spans of a text. -/
def braceSpans (cs : List Char) : List (Nat × Nat) := braceSpansAux cs 0 []

/-- Stable insertion before the first strictly shorter span (descending
sort by `end - start`, ties keeping original order, like Python sorted with
a reversed key). -/
def insertSpan (p : Nat × Nat) : List (Nat × Nat) → List (Nat × Nat)
  | [] => [p]
  | q :: qs =>
    if q.2 - q.1 ≤ p.2 - p.1 then p :: q :: qs
    else q :: insertSpan p qs

/-- Candidate spans sorted by length, longest first, stable. -/
def sortSpansDesc (l : List (Nat × Nat)) : List (Nat × Nat) :=
  l.foldr insertSpan []

/-- First candidate slice `text[start:end+1]` that reads as JSON. -/
def firstParsableSpan (cs : List Char) : List (Nat × Nat) → Option (List Char)
  | [] => none
  | p :: ps =>
    let cand := (cs.drop p.1).take (p.2 + 1 - p.1)
    if (loads cand).isSome then some cand else firstParsableSpan cs ps

/-- Strategy 3 of `_extract_json` followed by the final error. -/
def braceExtract (cs : List Char) : Except (List Char) (List Char) :=
  match firstParsableSpan cs (sortSpansDesc (braceSpans cs)) with
  | some cand => .ok cand
  | none => .error (tl "No valid JSON found: " ++ cs.take 100 ++ tl "...")

/-- Model of `LLMClient._extract_json`: direct read, then fenced block, then
longest balanced brace span; empty input and exhausted strategies raise. -/
def extract_json (cs : List Char) : Except (List Char) (List Char) :=
  if cs.isEmpty then .error (tl "Empty text")
  else if (loads cs).isSome then .ok cs
  else
    match findFence cs with
    | some cap => if (loads cap).isSome then .ok (pyStrip cap) else braceExtract cs
    | none => braceExtract cs

/-- Opening fence with the `json` tag and a newline. -/
def fenceOpen : List Char := [btk, btk, btk, 'j', 's', 'o', 'n', '\n']

/-- Closing fence preceded by a newline. -/
def fenceClose : List Char := ['\n', btk, btk, btk]

/-- A body wrapped in a fenced `json` block. -/
def fenceWrap (body : List Char) : List Char := fenceOpen ++ body ++ fenceClose

/-- Python `type(x).__name__` on decoded JSON values. -/
def pyTypeName : Json → List Char
  | .null => tl "NoneType"
  | .bool _ => tl "bool"
  | .num _ => tl "int"
  | .str _ => tl "str"
  | .arr _ => tl "list"
  | .obj _ => tl "dict"

/-- Whether a JSON value is an object (a Python dict). -/
def isObjB : Json → Bool
  | .obj _ => true
  | _ => false

/-- Model of `LLMClient._ensure_object` (src/agentic/src/llm.py): a dict is
returned as is; an array yields its first dict element; everything else
raises `Expected object, got <type>`. -/
def ensure_object (d : Json) : Except (List Char) Json :=
  match d with
  | .obj ms => .ok (.obj ms)
  | .arr xs =>
    match xs.find? isObjB with
    | some o => .ok o
    | none => .error (tl "Expected object, got list")
  | other => .error (tl "Expected object, got " ++ pyTypeName other)

/-- Concrete object whose serialization contains three backticks and a brace
inside a string literal. -/
def c6obj : Json := .obj [(tl "a", .str [btk, btk, btk, '\x7d'])]

/-! Model of `ContextManager` (src/src/context.py).  Entries keep the fields
the properties read: role, content and entry type.  Timestamps, metadata and
file persistence are not read by any property and are omitted. -/

/-- One context entry. -/
structure Entry where
  role : String
  content : String
  entry_type : String
deriving DecidableEq

/-- Total content length of the stored entries, as `_needs_compression`
computes it. -/
def totalLength (es : List Entry) : Nat :=
  es.foldl (fun a e => a + e.content.length) 0

/-- Model of `ContextManager.compress_if_needed`: returns the new entry list
together with the archived entries (`none` when no archive file is written).
Triggers only when the total content length exceeds the ceiling; keeps the
system entries plus the last 20 entries when more than 20 exist; archives the
slice `entries[len(system):-20]` when the entry count exceeds the system
count plus 20. -/
def compress_if_needed (maxLen : Nat) (es : List Entry) :
    List Entry × Option (List Entry) :=
  if totalLength es ≤ maxLen then (es, none)
  else
    let system_entries := es.filter (fun e => e.entry_type == "system")
    let recent_entries := if 20 < es.length then es.drop (es.length - 20) else []
    let old_entries :=
      if system_entries.length + 20 < es.length then
        (es.drop system_entries.length).take (es.length - 20 - system_entries.length)
      else []
    (system_entries ++ recent_entries,
      if old_entries.isEmpty then none else some old_entries)

/-- Operations on the stored entry list.  The first five mirror the append
methods; `compress_op` and `clear_op` mirror `compress_if_needed` and
`clear`. -/
inductive ContextOp where
  | add_system_prompt (content : String)
  | add_user_request (content : String)
  | add_assistant_response (content : String)
  | add_tool_result (tool_name result : String) (is_error : Bool)
  | add_thought (reasoning : String)
  | compress_op
  | clear_op

/-- Effect of one operation on the stored entries.  `add_system_prompt`
inserts at index 0; the other append methods append at the end; `clear`
keeps only the system entries. -/
def applyOp (maxLen : Nat) (es : List Entry) : ContextOp → List Entry
  | .add_system_prompt c => ⟨"system", c, "system"⟩ :: es
  | .add_user_request c => es ++ [⟨"user", c, "message"⟩]
  | .add_assistant_response c => es ++ [⟨"assistant", c, "message"⟩]
  | .add_tool_result n r e =>
    es ++ [⟨"assistant", "[" ++ n ++ "] " ++ r, if e then "error" else "tool_result"⟩]
  | .add_thought r => es ++ [⟨"assistant", "[THOUGHT] " ++ r, "thought"⟩]
  | .compress_op => (compress_if_needed maxLen es).1
  | .clear_op => es.filter (fun e => e.entry_type == "system")

/-- Entries stored after a sequence of operations on a fresh store. -/
def buildEntries (maxLen : Nat) (ops : List ContextOp) : List Entry :=
  ops.foldl (applyOp maxLen) []

/-- Model of `ContextManager.get_messages`: system entries first (in stored
order), then non-system non-thought entries (in stored order), then the
synthesized goals message when requested and the goals text is nonempty. -/
def get_messages (es : List Entry) (goals : String) (include_goals : Bool) :
    List (String × String) :=
  (es.filter (fun e => e.entry_type == "system")).map (fun e => (e.role, e.content))
  ++ (es.filter (fun e => e.entry_type != "system" && e.entry_type != "thought")).map
      (fun e => (e.role, e.content))
  ++ (if include_goals && goals != "" then
        [("system", "\n" ++ goals ++ "\n\nKeep these goals in mind.")]
      else [])

/-- Whether an operation is one of the five append methods. -/
def isAppendOp : ContextOp → Bool
  | .compress_op => false
  | .clear_op => false
  | _ => true

/-- Messages contributed by `add_system_prompt` calls, in call order. -/
def specSystemMsgs (ops : List ContextOp) : List (String × String) :=
  ops.filterMap fun op =>
    match op with
    | .add_system_prompt c => some ("system", c)
    | _ => none

/-- Messages contributed by the non-system, non-thought append calls, in
call order. -/
def specOtherMsgs (ops : List ContextOp) : List (String × String) :=
  ops.filterMap fun op =>
    match op with
    | .add_user_request c => some ("user", c)
    | .add_assistant_response c => some ("assistant", c)
    | .add_tool_result n r _ => some ("assistant", "[" ++ n ++ "] " ++ r)
    | _ => none

/-- The optional goals message. -/
def goalsSuffix (goals : String) (include_goals : Bool) : List (String × String) :=
  if include_goals && goals != "" then
    [("system", "\n" ++ goals ++ "\n\nKeep these goals in mind.")]
  else []

/-- Stored entries contributed by `add_system_prompt` calls, in call order. -/
def sysEntriesOf (ops : List ContextOp) : List Entry :=
  ops.filterMap fun op =>
    match op with
    | .add_system_prompt c => some ⟨"system", c, "system"⟩
    | _ => none

/-- Stored entries contributed by the other append calls, in call order. -/
def otherEntriesOf (ops : List ContextOp) : List Entry :=
  ops.filterMap fun op =>
    match op with
    | .add_user_request c => some ⟨"user", c, "message"⟩
    | .add_assistant_response c => some ⟨"assistant", c, "message"⟩
    | .add_tool_result n r e =>
      some ⟨"assistant", "[" ++ n ++ "] " ++ r, if e then "error" else "tool_result"⟩
    | .add_thought r => some ⟨"assistant", "[THOUGHT] " ++ r, "thought"⟩
    | _ => none

/-- Every system entry precedes every non-system entry in the stored list. -/
def SystemsFirst (es : List Entry) : Prop :=
  ∃ s t, es = s ++ t ∧ (∀ e ∈ s, e.entry_type = "system")
    ∧ (∀ e ∈ t, e.entry_type ≠ "system")

/-- Concrete store contents: one system entry followed by 25 user messages of
four characters each. -/
def c2demo : List Entry :=
  ⟨"system", "S", "system"⟩ :: List.replicate 25 ⟨"user", "mmmm", "message"⟩

/-- Concrete store contents: three user messages of four characters each. -/
def c2small : List Entry := List.replicate 3 ⟨"user", "mmmm", "message"⟩

/-- Concrete store contents: 25 user messages of four characters each. -/
def c2mid : List Entry := List.replicate 25 ⟨"user", "mmmm", "message"⟩

/-!
### SubAgent executors

`src/src/subagents/chain_subagent.py`, `tool_subagent.py`,
`skill_subagent.py` and `skill_result.py`.  Character lists stand for
Python strings.  A nested executor invocation inside a chain is abstracted
by an oracle `exec : Nat -> ExecBehavior` giving the outcome of the n-th
invocation; the un-modelled `result` payloads are omitted from the result
record.
-/

/-- Outcome of one nested `subagent.execute` call inside a chain: a
successful result carrying a token count, a failed result whose `error`
field renders as the given string, or a raised exception whose `str` is the
given string. -/
inductive ExecBehavior where
  | ok (tokens : Nat)
  | failure (err : List Char)
  | raise (msg : List Char)
  deriving DecidableEq

/-- The fields of the `SubAgentResult` returned by `ChainSubAgent.execute`
that the claims speak about. -/
structure ChainResult where
  success : Bool
  error : Option (List Char)
  summary : List Char
  step_index : Option Nat
  executed : Nat
  tokens_used : Option Nat
  deriving DecidableEq

/-- Key lookup in a parsed JSON object (`dict.get`). -/
def jGet (fields : List (List Char × Json)) (k : List Char) : Option Json :=
  (fields.find? (fun p => p.1 == k)).map (fun p => p.2)

/-- Python `str()` of a JSON-derived value, used when an unexpected chain
step type tag is interpolated into an error message (`None` for a missing
key / JSON null; containers are approximated by their JSON serialization,
which no proved statement relies on). -/
def pyStrOfJson : Option Json → List Char
  | none => tl "None"
  | some .null => tl "None"
  | some (.bool true) => tl "True"
  | some (.bool false) => tl "False"
  | some (.num n) => intChars n
  | some (.str s) => s
  | some v => dumpsVal v

/-- The step loop of `ChainSubAgent.execute` over the parsed steps, with
`i` the 1-based step index, `n` the number of nested executor invocations
made so far and `tok` the accumulated token total of the successful steps.
A step of type `"skill"` is skipped by `continue`; `"tool"` and `"chain"`
invoke the executor; any other type tag fails without invoking it.  `none`
models the uncaught `AttributeError` from `step.get` on a non-dict step.
The interpreter-specific `str(e)` suffix of the JSON-parse error message is
not modelled (only its fixed prefix). -/
def chainStepsRun (ex : Nat → ExecBehavior) :
    List Json → Nat → Nat → Nat → Option ChainResult
  | [], _, n, tok =>
    some { success := true, error := none,
           summary := tl "Chain completed: " ++ natChars n ++ tl " steps executed",
           step_index := none, executed := n, tokens_used := some tok }
  | step :: rest, i, n, tok =>
    match step with
    | .obj fs =>
      match jGet fs (tl "type") with
      | some (.str t) =>
        if t == tl "skill" then chainStepsRun ex rest (i + 1) n tok
        else if t == tl "tool" || t == tl "chain" then
          match ex n with
          | .ok tk => chainStepsRun ex rest (i + 1) (n + 1) (tok + tk)
          | .failure err =>
            some { success := false, error := some (tl "Step failed: " ++ err),
                   summary := tl "Step " ++ natChars i ++ tl " failed",
                   step_index := some i, executed := n + 1, tokens_used := none }
          | .raise msg =>
            some { success := false, error := some msg,
                   summary := tl "Exception at step " ++ natChars i,
                   step_index := some i, executed := n + 1, tokens_used := none }
        else
          some { success := false,
                 error := some (tl "SubAgent type '" ++ t ++ tl "' not found"),
                 summary := tl "SubAgent not found at step " ++ natChars i,
                 step_index := some i, executed := n, tokens_used := none }
      | st =>
        some { success := false,
               error := some (tl "SubAgent type '" ++ pyStrOfJson st
                 ++ tl "' not found"),
               summary := tl "SubAgent not found at step " ++ natChars i,
               step_index := some i, executed := n, tokens_used := none }
    | _ => none

/-- `ChainSubAgent.execute` on a chain definition given as a JSON string:
parse the command, reject non-lists, then run the step loop. -/
def chain_execute (ex : Nat → ExecBehavior) (cmd : List Char) :
    Option ChainResult :=
  match loads cmd with
  | none =>
    some { success := false, error := some (tl "Failed to parse chain JSON"),
           summary := tl "Invalid chain definition", step_index := none,
           executed := 0, tokens_used := none }
  | some (.arr steps) => chainStepsRun ex steps 1 0 0
  | some _ =>
    some { success := false, error := some (tl "Chain must be a list of steps"),
           summary := tl "Invalid chain format", step_index := none,
           executed := 0, tokens_used := none }

/-- One call of the underlying tool inside `ToolSubAgent.execute`: it either
returns normally or raises an exception rendering as the given string. -/
inductive ToolOutcome where
  | ret
  | raise (msg : List Char)
  deriving DecidableEq

/-- `ToolSubAgent.execute`: success flag and error field of the returned
`SubAgentResult`; `tools` is the key set of the tool dictionary. -/
def tool_execute (tools : List (List Char)) (command : List Char)
    (outcome : ToolOutcome) : Bool × Option (List Char) :=
  if tools.contains command then
    match outcome with
    | .ret => (true, none)
    | .raise msg => (false, some msg)
  else (false, some (tl "Tool not found: " ++ command))

/-- The fields of `SkillResult` that `get_summary_or_confirmation` inspects,
as optional strings (`none` models Python `None`). -/
structure SkillResultM where
  success : Bool
  confirmation : Option (List Char)
  summary : Option (List Char)
  details : Option (List Char)
  deriving DecidableEq

/-- Python truthiness of an optional string: `None` and `""` are falsy. -/
def truthyStr : Option (List Char) → Bool
  | some s => !s.isEmpty
  | none => false

/-- `SkillResult.get_summary_or_confirmation`: first truthy field among
summary, confirmation and details, else the literal `"Task completed"`. -/
def get_summary_or_confirmation (r : SkillResultM) : List Char :=
  if truthyStr r.summary then r.summary.getD []
  else if truthyStr r.confirmation then r.confirmation.getD []
  else if truthyStr r.details then r.details.getD []
  else tl "Task completed"

/-- `SkillSubAgent.execute`: when the inner `execute_skill` call raises,
the result's error is `str(e)`; otherwise success and error mirror the
returned `SkillResult`, the error field being its
`get_summary_or_confirmation`. -/
def skill_sub_execute (sr : SkillResultM) (raised : Option (List Char)) :
    Bool × Option (List Char) :=
  match raised with
  | some msg => (false, some msg)
  | none =>
    (sr.success, if sr.success then none else some (get_summary_or_confirmation sr))

/-!
### Skill tool filtering and the skill execution loop

`src/src/skills/context.py` and `src/src/skills/manager.py`.  Tool
dictionaries are association lists from tool name to an opaque numeric tool
identifier.
-/

/-- `SkillContextManager.filter_allowed_tools`: an empty (or missing)
`allowed_tools` list returns the whole supplied dictionary; otherwise each
allowed name present in the supplied dictionary is kept with its value. -/
def filter_allowed_tools (allowed_tools : List (List Char))
    (tools_available : List (List Char × Nat)) : List (List Char × Nat) :=
  if allowed_tools.isEmpty then tools_available
  else
    allowed_tools.filterMap fun n =>
      (tools_available.find? (fun p => p.1 == n)).map (fun p => (n, p.2))

/-- `set(skill.allowed_tools) - set(filtered_tools.keys())` in
`SkillManager.execute_skill`, as the allowed names absent from the filtered
dictionary, in declaration order. -/
def missing_tools (allowed : List (List Char))
    (filtered : List (List Char × Nat)) : List (List Char) :=
  allowed.filter (fun n => !(filtered.any (fun p => p.1 == n)))

/-- The required-tool validation at the top of `SkillManager.execute_skill`:
`some errs` is the `errors` list of the immediate failure result, `none`
means execution proceeds. -/
def execute_skill_validate (allowed : List (List Char))
    (avail : List (List Char × Nat)) : Option (List (List Char)) :=
  let filtered := filter_allowed_tools allowed avail
  let missing := missing_tools allowed filtered
  if missing.isEmpty then none
  else some (missing.map (fun t => tl "Missing tool: " ++ t))

/-- What one iteration of the skill execution loop observes: the LLM
response indicates completion, tool calls are made (with the file paths of
the successful `file_write` calls), no tool calls are made, or the
iteration raises an exception. -/
inductive SkillStepEv where
  | complete
  | toolCalls (files : List (List Char))
  | noCalls
  | err
  deriving DecidableEq

/-- The result-tracking state of `SkillManager.execute_skill`: executed step
count, saved files, data outputs (never extended by the loop) and the error
count. -/
structure SkillRunState where
  steps : Nat
  files_saved : List (List Char)
  outputs : List (List Char)
  errors : Nat
  deriving DecidableEq

/-- The `while execution_steps < 20` loop of `SkillManager.execute_skill`,
driven by the per-step oracle `ev`: completion breaks, errors accumulate and
break once three have been collected.  The fuel argument only bounds the
recursion; twenty units make it unreachable before the step cap. -/
def skillLoop (ev : Nat → SkillStepEv) : Nat → SkillRunState → SkillRunState
  | 0, st => st
  | fuel + 1, st =>
    if 20 ≤ st.steps then st
    else
      match ev st.steps with
      | .complete => { st with steps := st.steps + 1 }
      | .toolCalls files =>
        skillLoop ev fuel
          { st with steps := st.steps + 1, files_saved := st.files_saved ++ files }
      | .noCalls => skillLoop ev fuel { st with steps := st.steps + 1 }
      | .err =>
        if 3 ≤ st.errors + 1 then { st with steps := st.steps + 1, errors := st.errors + 1 }
        else skillLoop ev fuel { st with steps := st.steps + 1, errors := st.errors + 1 }

/-- The full skill execution loop from the initial tracking state. -/
def execute_skill_loop (ev : Nat → SkillStepEv) : SkillRunState :=
  skillLoop ev 20 ⟨0, [], [], 0⟩

/-- The success flag compiled at the end of `SkillManager.execute_skill`:
fewer than three errors and at least one saved file or data output. -/
def skill_success (st : SkillRunState) : Bool :=
  decide (st.errors < 3)
    && (decide (0 < st.files_saved.length) || decide (0 < st.outputs.length))

/-!
### The orchestrator loop's progress check

`MinimalAgent.run` in `src/src/agent.py`.  Each step thinks and then, when
the 0-based step index is at least 5 and the shared-memory
tangible-results flag is unset, injects a progress-check system prompt;
the decided next action then either ends the run (`finish`,
`respond_to_user`) or continues it.  The oracles `act` and `flag` give the
thought's next action and the flag's value at each step.
-/

/-- The next action decided by `think` at a step (`subagent` covers every
action that executes a SubAgent, including ones that fail or are skipped:
all of them continue the loop). -/
inductive NextAction where
  | finish
  | think
  | respond_to_user
  | subagent
  deriving DecidableEq

/-- The 0-based step indices at which the progress-check system prompt is
injected, starting from step `step` with `fuel` steps remaining in the
budget. -/
def agentInjectAux (act : Nat → NextAction) (flag : Nat → Bool) :
    Nat → Nat → List Nat
  | _, 0 => []
  | step, fuel + 1 =>
    (if 5 ≤ step && !flag step then [step] else [])
      ++ (match act step with
          | .finish => []
          | .respond_to_user => []
          | _ => agentInjectAux act flag (step + 1) fuel)

/-- The progress-check injection steps of a whole `run` with the given
step budget. -/
def agentInjections (act : Nat → NextAction) (flag : Nat → Bool)
    (max_steps : Nat) : List Nat :=
  agentInjectAux act flag 0 max_steps

/-- Concrete chain steps for the C3 witness. -/
def c3stepA : Json := .obj [(tl "type", .str (tl "tool")), (tl "command", .str (tl "a"))]

/-- Second concrete chain step (the failing one). -/
def c3stepB : Json := .obj [(tl "type", .str (tl "tool")), (tl "command", .str (tl "b"))]

/-- Third concrete chain step (never reached). -/
def c3stepC : Json := .obj [(tl "type", .str (tl "tool")), (tl "command", .str (tl "c"))]

/-- Concrete executor oracle for the C3 witness: the first invocation
succeeds with five tokens, every later one fails with error `boom`. -/
def c3exec : Nat → ExecBehavior
  | 0 => .ok 5
  | _ => .failure (tl "boom")


/-! Reader and serializer agree: helper lemmas. -/

theorem noDigitHead_nil : noDigitHead [] := by
  intro c h
  simp at h

theorem noDigitHead_cons {c : Char} (cs : List Char) (h : c.isDigit = false) :
    noDigitHead (c :: cs) := by
  intro d hd
  simp at hd
  rw [← hd]
  exact h

theorem takeWhile_all_append {p : Char → Bool} {xs ys : List Char}
    (h1 : ∀ x ∈ xs, p x = true) (h2 : ∀ c, ys.head? = some c → p c = false) :
    (xs ++ ys).takeWhile p = xs ∧ (xs ++ ys).dropWhile p = ys := by
  induction xs with
  | nil =>
    cases ys with
    | nil => exact ⟨rfl, rfl⟩
    | cons c t =>
      have := h2 c rfl
      simp [List.takeWhile_cons, List.dropWhile_cons, this]
  | cons x t ih =>
    have hx := h1 x (by simp)
    have iht := ih (fun y hy => h1 y (by simp [hy]))
    simp [List.takeWhile_cons, List.dropWhile_cons, hx, iht.1, iht.2]

theorem skipWs_ws_append {w : List Char} (cs : List Char)
    (hw : w.all isJsonWs = true) : skipWs (w ++ cs) = skipWs cs := by
  induction w with
  | nil => rfl
  | cons c t ih =>
    simp at hw
    simp [skipWs, List.dropWhile_cons, hw.1]
    exact ih (by simp [List.all_eq_true]; exact hw.2)

theorem skipWs_not_ws {c : Char} (cs : List Char) (h : isJsonWs c = false) :
    skipWs (c :: cs) = c :: cs := by
  simp [skipWs, List.dropWhile_cons, h]

theorem skipWs_all_ws {w : List Char} (hw : w.all isJsonWs = true) :
    skipWs w = [] := by
  have := skipWs_ws_append (w := w) [] hw
  simpa [skipWs] using this

theorem isDigit_ne {c d : Char} (hc : c.isDigit = true) (hd : d.isDigit = false) :
    c ≠ d := by
  intro e
  rw [e, hd] at hc
  cases hc

theorem isDigit_not_ws {c : Char} (hc : c.isDigit = true) : isJsonWs c = false := by
  have h1 : c ≠ ' ' := isDigit_ne hc (by decide)
  have h2 : c ≠ '\t' := isDigit_ne hc (by decide)
  have h3 : c ≠ '\n' := isDigit_ne hc (by decide)
  have h4 : c ≠ '\r' := isDigit_ne hc (by decide)
  simp [isJsonWs, h1, h2, h3, h4]

theorem digitChar_isDigit {d : Nat} (h : d < 10) : (digitChar d).isDigit = true := by
  interval_cases d <;> rfl

theorem digitChar_val {d : Nat} (h : d < 10) : (digitChar d).toNat - 48 = d := by
  interval_cases d <;> rfl

theorem natDigitsAux_acc (fuel : Nat) :
    ∀ n acc, n < fuel → natDigitsAux fuel n acc = natChars n ++ acc := by
  induction fuel using Nat.strong_induction_on with
  | _ fuel IH =>
    intro n acc hn
    match fuel, hn with
    | f + 1, hn =>
      by_cases h10 : n < 10
      · simp [natDigitsAux, h10, natChars]
      · have hdiv : n / 10 < n := Nat.div_lt_self (by omega) (by omega)
        have step : natDigitsAux (f + 1) n acc
            = natDigitsAux f (n / 10) (digitChar (n % 10) :: acc) := by
          simp [natDigitsAux, h10]
        have step2 : natChars n = natChars (n / 10) ++ [digitChar (n % 10)] := by
          have : natChars n = natDigitsAux n (n / 10) (digitChar (n % 10) :: []) := by
            simp [natChars, natDigitsAux, h10]
          rw [this, IH n (by omega) (n / 10) _ (by omega)]
        rw [step, IH f (by omega) (n / 10) _ (by omega), step2, List.append_assoc]
        rfl

theorem natChars_unfold (n : Nat) :
    natChars n = if n < 10 then [digitChar n]
      else natChars (n / 10) ++ [digitChar (n % 10)] := by
  by_cases h10 : n < 10
  · simp [natChars, natDigitsAux, h10]
  · have : natChars n = natDigitsAux n (n / 10) (digitChar (n % 10) :: []) := by
      simp [natChars, natDigitsAux, h10]
    rw [this, natDigitsAux_acc n (n / 10) [digitChar (n % 10)]
      (Nat.div_lt_self (by omega) (by omega))]
    simp [h10]

theorem natChars_all_digit (n : Nat) : ∀ c ∈ natChars n, c.isDigit = true := by
  induction n using Nat.strong_induction_on with
  | _ n IH =>
    rw [natChars_unfold]
    by_cases h10 : n < 10
    · simp [h10, digitChar_isDigit h10]
    · have hdiv : n / 10 < n := Nat.div_lt_self (by omega) (by omega)
      simp only [h10, if_false]
      intro c hc
      rcases List.mem_append.mp hc with h | h
      · exact IH (n / 10) hdiv c h
      · simp at h
        rw [h]
        exact digitChar_isDigit (Nat.mod_lt _ (by omega))

theorem natChars_ne_nil (n : Nat) : natChars n ≠ [] := by
  rw [natChars_unfold]
  by_cases h10 : n < 10 <;> simp [h10]

theorem digitsVal_append_one (ds : List Char) (c : Char) :
    digitsVal (ds ++ [c]) = digitsVal ds * 10 + (c.toNat - 48) := by
  simp [digitsVal, List.foldl_append]

theorem digitsVal_natChars (n : Nat) : digitsVal (natChars n) = n := by
  induction n using Nat.strong_induction_on with
  | _ n IH =>
    rw [natChars_unfold]
    by_cases h10 : n < 10
    · simp [h10, digitsVal, digitChar_val h10]
    · have hdiv : n / 10 < n := Nat.div_lt_self (by omega) (by omega)
      simp only [h10, if_false]
      rw [digitsVal_append_one, IH (n / 10) hdiv, digitChar_val (Nat.mod_lt _ (by omega))]
      omega

theorem parseNatChars_spec (n : Nat) (rest : List Char) (h : noDigitHead rest) :
    parseNatChars (natChars n ++ rest) = some (n, rest) := by
  have hall : ∀ c ∈ natChars n, Char.isDigit c = true := natChars_all_digit n
  have hsplit := takeWhile_all_append (p := Char.isDigit) hall h
  simp [parseNatChars, hsplit.1, hsplit.2, natChars_ne_nil n, digitsVal_natChars n,
    List.isEmpty_iff]

theorem parseStrBody_escape (s : List Char) (rest : List Char) :
    parseStrBody (escapeChars s ++ '"' :: rest) = some (s, rest) := by
  induction s with
  | nil =>
    simp only [escapeChars, List.nil_append]
    rw [parseStrBody.eq_def]
    simp
  | cons c cs ih =>
    by_cases hc : c = '"' ∨ c = '\\'
    · have he : escapeChars (c :: cs) = '\\' :: c :: escapeChars cs := by
        simp [escapeChars, hc]
      rw [he, List.cons_append, List.cons_append, parseStrBody.eq_def]
      rcases hc with hc | hc <;> subst hc <;> simp [unescapeChar, ih]
    · push_neg at hc
      have he : escapeChars (c :: cs) = c :: escapeChars cs := by
        simp [escapeChars, hc.1, hc.2]
      rw [he, List.cons_append, parseStrBody.eq_def]
      simp only []
      rw [if_neg hc.1, if_neg hc.2, ih]
      rfl

theorem ws_not_digit {c : Char} (h : isJsonWs c = true) : c.isDigit = false := by
  simp [isJsonWs] at h
  rcases h with h | h | h | h <;> rw [h] <;> rfl

theorem noDigitHead_of_ws {w : List Char} (hw : w.all isJsonWs = true) :
    noDigitHead w := by
  intro c hc
  cases w with
  | nil => simp at hc
  | cons a t =>
    simp at hc hw
    rw [← hc]
    exact ws_not_digit hw.1

theorem dumpsVal_head (o : Json) :
    ∃ c cs, dumpsVal o = c :: cs ∧ isJsonWs c = false ∧ c ≠ ']' := by
  cases o with
  | null => exact ⟨'n', ['u', 'l', 'l'], rfl, by decide, by decide⟩
  | bool b =>
    cases b with
    | false => exact ⟨'f', ['a', 'l', 's', 'e'], rfl, by decide, by decide⟩
    | true => exact ⟨'t', ['r', 'u', 'e'], rfl, by decide, by decide⟩
  | num n =>
    cases n with
    | ofNat m =>
      obtain ⟨c, cs, hnc⟩ : ∃ c cs, natChars m = c :: cs := by
        cases h : natChars m with
        | nil => exact absurd h (natChars_ne_nil m)
        | cons a b => exact ⟨a, b, rfl⟩
      have hcd : c.isDigit = true := natChars_all_digit m c (by rw [hnc]; simp)
      exact ⟨c, cs, by simp [dumpsVal, intChars, hnc],
        isDigit_not_ws hcd, isDigit_ne hcd (by decide)⟩
    | negSucc m =>
      exact ⟨'-', natChars (m + 1), by simp [dumpsVal, intChars], by decide, by decide⟩
  | str s =>
    exact ⟨'"', escapeChars s ++ ['"'], by simp [dumpsVal, dumpsStrChars],
      by decide, by decide⟩
  | arr xs => exact ⟨'[', dumpsElems xs ++ [']'], by simp [dumpsVal], by decide, by decide⟩
  | obj ms => exact ⟨'{', dumpsMembers ms ++ ['}'], by simp [dumpsVal], by decide, by decide⟩

theorem dumpsVal_length_pos (o : Json) : 0 < (dumpsVal o).length := by
  obtain ⟨c, cs, h, -, -⟩ := dumpsVal_head o
  simp [h]

/-- Main agreement statement between the serializer and the reader, proved by
strong induction on the fuel: a serialized value surrounded by whitespace and
followed by text that cannot extend a number reads back as itself. -/
theorem parse_dumps (fuel : Nat) :
    (∀ (o : Json) (w rest : List Char), w.all isJsonWs = true → noDigitHead rest →
        (dumpsVal o).length + 1 ≤ fuel →
        parseValue fuel (w ++ dumpsVal o ++ rest) = some (o, rest))
    ∧ (∀ (x : Json) (xs : List Json) (w rest : List Char), w.all isJsonWs = true →
        (dumpsElems (x :: xs)).length + 2 ≤ fuel →
        parseElems fuel (w ++ dumpsElems (x :: xs) ++ ']' :: rest)
          = some (x :: xs, rest))
    ∧ (∀ (k : List Char) (v : Json) (ms : List (List Char × Json)) (w rest : List Char),
        w.all isJsonWs = true →
        (dumpsMembers ((k, v) :: ms)).length + 2 ≤ fuel →
        parseMembers fuel (w ++ dumpsMembers ((k, v) :: ms) ++ '}' :: rest)
          = some ((k, v) :: ms, rest)) := by
  induction fuel using Nat.strong_induction_on with
  | _ fuel IH =>
    rcases fuel with _ | f
    · refine ⟨fun o w rest _ _ h => ?_, fun x xs w rest _ h => ?_,
        fun k v ms w rest _ h => ?_⟩ <;> omega
    have IHV := fun (hg : f < f + 1) => (IH f hg).1
    have IHE := fun (hg : f < f + 1) => (IH f hg).2.1
    have IHM := fun (hg : f < f + 1) => (IH f hg).2.2
    refine ⟨?_, ?_, ?_⟩
    · -- one value
      intro o w rest hw hrd hlen
      cases o with
      | null =>
        rw [parseValue.eq_def]
        simp only [dumpsVal, List.append_assoc, List.cons_append, List.nil_append]
        rw [skipWs_ws_append _ hw, skipWs_not_ws _ (by decide)]
        simp
      | bool b =>
        cases b with
        | true =>
          rw [parseValue.eq_def]
          simp only [dumpsVal, List.append_assoc, List.cons_append, List.nil_append]
          rw [skipWs_ws_append _ hw, skipWs_not_ws _ (by decide)]
          simp
        | false =>
          rw [parseValue.eq_def]
          simp only [dumpsVal, List.append_assoc, List.cons_append, List.nil_append]
          rw [skipWs_ws_append _ hw, skipWs_not_ws _ (by decide)]
          simp
      | num n =>
        cases n with
        | ofNat m =>
          obtain ⟨c, cs, hnc⟩ : ∃ c cs, natChars m = c :: cs := by
            cases h : natChars m with
            | nil => exact absurd h (natChars_ne_nil m)
            | cons a b => exact ⟨a, b, rfl⟩
          have hcd : c.isDigit = true := natChars_all_digit m c (by rw [hnc]; simp)
          rw [parseValue.eq_def]
          simp only [dumpsVal, intChars, hnc, List.append_assoc, List.cons_append, List.nil_append]
          rw [skipWs_ws_append _ hw, skipWs_not_ws _ (isDigit_not_ws hcd)]
          simp only []
          rw [if_neg (isDigit_ne hcd (by decide) : c ≠ '{'),
            if_neg (isDigit_ne hcd (by decide) : c ≠ '['),
            if_neg (isDigit_ne hcd (by decide) : c ≠ '"'),
            if_neg (isDigit_ne hcd (by decide) : c ≠ 't'),
            if_neg (isDigit_ne hcd (by decide) : c ≠ 'f'),
            if_neg (isDigit_ne hcd (by decide) : c ≠ 'n'),
            if_neg (isDigit_ne hcd (by decide) : c ≠ '-'),
            if_pos hcd]
          rw [show c :: (cs ++ rest) = natChars m ++ rest from by rw [hnc]; simp]
          rw [parseNatChars_spec m rest hrd]
          rfl
        | negSucc m =>
          rw [parseValue.eq_def]
          simp only [dumpsVal, intChars, List.append_assoc, List.cons_append, List.nil_append]
          rw [skipWs_ws_append _ hw, skipWs_not_ws _ (by decide)]
          simp only []
          rw [if_neg (by decide : ('-' : Char) ≠ '{'),
            if_neg (by decide : ('-' : Char) ≠ '['),
            if_neg (by decide : ('-' : Char) ≠ '"'),
            if_neg (by decide : ('-' : Char) ≠ 't'),
            if_neg (by decide : ('-' : Char) ≠ 'f'),
            if_neg (by decide : ('-' : Char) ≠ 'n')]
          simp only [if_true]
          rw [parseNatChars_spec (m + 1) rest hrd]
          simp only []
          have hint : -(((m + 1 : Nat)) : Int) = Int.negSucc m := by
            rw [Int.negSucc_eq]
            push_cast
            ring
          rw [hint]
      | str s =>
        rw [parseValue.eq_def]
        simp only [dumpsVal, dumpsStrChars, List.append_assoc, List.cons_append, List.nil_append]
        rw [skipWs_ws_append _ hw, skipWs_not_ws _ (by decide)]
        simp only []
        rw [if_neg (by decide : ('"' : Char) ≠ '{'),
          if_neg (by decide : ('"' : Char) ≠ '[')]
        simp only [if_true, List.nil_append]
        rw [parseStrBody_escape s rest]
      | arr xs =>
        cases xs with
        | nil =>
          rw [parseValue.eq_def]
          simp only [dumpsVal, dumpsElems, List.append_assoc, List.cons_append,
            List.nil_append]
          rw [skipWs_ws_append _ hw, skipWs_not_ws _ (by decide)]
          simp only []
          simp only [if_true]
          rw [if_neg (by decide : ¬ ('[' : Char) = '{'), skipWs_not_ws _ (by decide)]
          simp
        | cons x xs' =>
          obtain ⟨c, cs, hds, hcws, hcrb⟩ := dumpsVal_head x
          obtain ⟨t, ht⟩ : ∃ t, dumpsElems (x :: xs') = c :: t := by
            cases xs' with
            | nil => exact ⟨cs, by simp [dumpsElems, hds]⟩
            | cons y ys =>
              exact ⟨cs ++ ',' :: ' ' :: dumpsElems (y :: ys), by simp [dumpsElems, hds]⟩
          rw [parseValue.eq_def]
          simp only [dumpsVal, List.append_assoc, List.cons_append, List.nil_append]
          rw [skipWs_ws_append _ hw, skipWs_not_ws _ (by decide)]
          simp only []
          simp only [if_true]
          rw [if_neg (by decide : ¬ ('[' : Char) = '{')]
          rw [show dumpsElems (x :: xs') ++ (']' :: rest) = c :: (t ++ ']' :: rest)
            from by rw [ht]; simp]
          rw [skipWs_not_ws _ hcws]
          have hback : c :: (t ++ ']' :: rest) = dumpsElems (x :: xs') ++ ']' :: rest := by
            rw [ht]
            simp
          simp only []
          rw [if_neg hcrb, hback]
          have hE := IHE (by omega) x xs' [] rest rfl (by
            simp [dumpsVal] at hlen
            omega)
          simp only [List.nil_append] at hE
          rw [hE]
      | obj ms =>
        cases ms with
        | nil =>
          rw [parseValue.eq_def]
          simp only [dumpsVal, dumpsMembers, List.append_assoc, List.cons_append,
            List.nil_append]
          rw [skipWs_ws_append _ hw, skipWs_not_ws _ (by decide)]
          simp only []
          simp only [if_true]
          rw [skipWs_not_ws _ (by decide)]
          simp
        | cons kv ms' =>
          obtain ⟨k, v⟩ := kv
          obtain ⟨t, ht⟩ : ∃ t, dumpsMembers ((k, v) :: ms') = '"' :: t := by
            cases ms' with
            | nil =>
              exact ⟨escapeChars k ++ ['"'] ++ ':' :: ' ' :: dumpsVal v,
                by simp [dumpsMembers, dumpsStrChars]⟩
            | cons m2 ms2 =>
              exact ⟨escapeChars k ++ ['"'] ++ ':' :: ' ' :: dumpsVal v ++
                ',' :: ' ' :: dumpsMembers (m2 :: ms2),
                by simp [dumpsMembers, dumpsStrChars]⟩
          rw [parseValue.eq_def]
          simp only [dumpsVal, List.append_assoc, List.cons_append, List.nil_append]
          rw [skipWs_ws_append _ hw, skipWs_not_ws _ (by decide)]
          simp only []
          simp only [if_true]
          rw [show dumpsMembers ((k, v) :: ms') ++ ('}' :: rest)
              = '"' :: (t ++ '}' :: rest) from by rw [ht]; simp]
          rw [skipWs_not_ws _ (by decide)]
          have hback : '"' :: (t ++ '}' :: rest)
              = dumpsMembers ((k, v) :: ms') ++ '}' :: rest := by
            rw [ht]
            simp
          simp only []
          rw [if_neg (by decide : ¬ ('"' : Char) = '}'), hback]
          have hM := IHM (by omega) k v ms' [] rest rfl (by
            simp [dumpsVal] at hlen
            omega)
          simp only [List.nil_append] at hM
          rw [hM]
    · -- array elements
      intro x xs w rest hw hlen
      cases xs with
      | nil =>
        rw [parseElems.eq_def]
        simp only [dumpsElems]
        have hV := IHV (by omega) x w (']' :: rest) hw
          (noDigitHead_cons _ (by decide)) (by simp [dumpsElems] at hlen; omega)
        rw [hV]
        simp only []
        rw [skipWs_not_ws _ (by decide)]
        simp
      | cons y ys =>
        have hpos := dumpsVal_length_pos x
        rw [parseElems.eq_def]
        simp only [dumpsElems, List.append_assoc, List.cons_append, List.nil_append]
        have hV := IHV (by omega) x w
          (',' :: ' ' :: (dumpsElems (y :: ys) ++ ']' :: rest)) hw
          (noDigitHead_cons _ (by decide)) (by
            simp [dumpsElems] at hlen
            omega)
        simp only [List.append_assoc, List.cons_append, List.nil_append] at hV
        rw [hV]
        simp only []
        rw [skipWs_not_ws _ (by decide)]
        simp only []
        rw [if_neg (by decide : ¬ (',' : Char) = ']')]
        simp only [if_true]
        have hE := IHE (by omega) y ys [' '] rest (by decide) (by
          simp [dumpsElems] at hlen
          omega)
        simp only [List.append_assoc, List.cons_append, List.nil_append] at hE
        rw [hE]
    · -- object members
      intro k v ms w rest hw hlen
      have hpos := dumpsVal_length_pos v
      cases ms with
      | nil =>
        rw [parseMembers.eq_def]
        simp only [dumpsMembers, dumpsStrChars, List.append_assoc, List.cons_append,
          List.nil_append]
        rw [skipWs_ws_append _ hw, skipWs_not_ws _ (by decide)]
        simp only []
        rw [parseStrBody_escape]
        simp only []
        rw [skipWs_not_ws _ (by decide)]
        simp only [if_true]
        have hV := IHV (by omega) v [' '] ('}' :: rest) (by decide)
          (noDigitHead_cons _ (by decide)) (by
            simp [dumpsMembers, dumpsStrChars] at hlen
            omega)
        simp only [List.append_assoc, List.cons_append, List.nil_append] at hV
        rw [hV]
        simp only []
        rw [skipWs_not_ws _ (by decide)]
        simp
      | cons m2 ms2 =>
        rw [parseMembers.eq_def]
        simp only [dumpsMembers, dumpsStrChars, List.append_assoc, List.cons_append,
          List.nil_append]
        rw [skipWs_ws_append _ hw, skipWs_not_ws _ (by decide)]
        simp only []
        rw [parseStrBody_escape]
        simp only []
        rw [skipWs_not_ws _ (by decide)]
        simp only [if_true]
        have hV := IHV (by omega) v [' ']
          (',' :: ' ' :: (dumpsMembers (m2 :: ms2) ++ '}' :: rest)) (by decide)
          (noDigitHead_cons _ (by decide)) (by
            simp [dumpsMembers, dumpsStrChars] at hlen
            omega)
        simp only [List.append_assoc, List.cons_append, List.nil_append] at hV
        rw [hV]
        simp only []
        rw [skipWs_not_ws _ (by decide)]
        simp only []
        rw [if_neg (by decide : ¬ (',' : Char) = '}')]
        simp only [if_true]
        obtain ⟨k2, v2⟩ := m2
        have hM := IHM (by omega) k2 v2 ms2 [' '] rest (by decide) (by
          simp [dumpsMembers, dumpsStrChars] at hlen
          omega)
        simp only [List.append_assoc, List.cons_append, List.nil_append] at hM
        rw [hM]

/-- The reader accepts exactly a serialized value followed by whitespace. -/
theorem loads_dumps (o : Json) (w : List Char) (hw : w.all isJsonWs = true) :
    loads (dumpsVal o ++ w) = some o := by
  unfold loads
  have h := (parse_dumps ((dumpsVal o ++ w).length + 1)).1 o [] w rfl
    (noDigitHead_of_ws hw) (by simp)
  simp only [List.nil_append] at h
  rw [h]
  simp only []
  rw [skipWs_all_ws hw]
  rfl

/-! Properties of the triple finder and the fenced-block extraction. -/

theorem ff_none : ∀ (cs : List Char), findFirstTriple cs = none →
    ∀ k, triplePrefix (cs.drop k) = false := by
  intro cs
  induction cs with
  | nil => intro h k; simp [triplePrefix]
  | cons c1 rest ih =>
    intro h k
    rcases rest with _ | ⟨c2, _ | ⟨c3, t⟩⟩
    · match k with
      | 0 => rfl
      | 1 => rfl
      | k + 2 => simp [triplePrefix]
    · match k with
      | 0 => rfl
      | 1 => rfl
      | 2 => rfl
      | k + 3 => simp [triplePrefix]
    · rw [findFirstTriple.eq_def] at h
      simp only [] at h
      by_cases hcond : c1 = btk ∧ c2 = btk ∧ c3 = btk
      · rw [if_pos hcond] at h
        cases h
      · rw [if_neg hcond] at h
        have h' : findFirstTriple (c2 :: c3 :: t) = none := by
          cases hr : findFirstTriple (c2 :: c3 :: t) with
          | none => rfl
          | some v => rw [hr] at h; cases h
        match k with
        | 0 =>
          simp only [List.drop_zero, triplePrefix]
          rcases not_and_or.mp hcond with hx | hy
          · simp [hx]
          · rcases not_and_or.mp hy with hx | hx <;> simp [hx]
        | k + 1 =>
          rw [List.drop_succ_cons]
          exact ih h' k

theorem ff_intro : ∀ (cs : List Char) (i : Nat),
    triplePrefix (cs.drop i) = true →
    (∀ k < i, triplePrefix (cs.drop k) = false) →
    findFirstTriple cs = some i := by
  intro cs
  induction cs with
  | nil =>
    intro i h1 h2
    rw [List.drop_nil] at h1
    simp [triplePrefix] at h1
  | cons c1 rest ih =>
    intro i h1 h2
    match i with
    | 0 =>
      rw [List.drop_zero] at h1
      rcases rest with _ | ⟨c2, _ | ⟨c3, t⟩⟩
      · simp [triplePrefix] at h1
      · simp [triplePrefix] at h1
      · simp only [triplePrefix, Bool.and_eq_true, decide_eq_true_eq] at h1
        rw [findFirstTriple.eq_def]
        simp [h1.1.1, h1.1.2, h1.2]
    | i + 1 =>
      have h0 := h2 0 (by omega)
      rw [List.drop_zero] at h0
      rw [List.drop_succ_cons] at h1
      rcases rest with _ | ⟨c2, _ | ⟨c3, t⟩⟩
      · rw [List.drop_nil] at h1
        simp [triplePrefix] at h1
      · exfalso
        have hd : List.drop i [c2] = [] ∨ List.drop i [c2] = [c2] := by
          match i with
          | 0 => right; rfl
          | i + 1 => left; simp
        rcases hd with hh | hh <;> rw [hh] at h1 <;> simp [triplePrefix] at h1
      · rw [findFirstTriple.eq_def]
        simp only []
        have hcond : ¬ (c1 = btk ∧ c2 = btk ∧ c3 = btk) := by
          intro hc
          simp [triplePrefix, hc.1, hc.2.1, hc.2.2] at h0
        rw [if_neg hcond]
        rw [ih i h1 (fun k hk => by
          have := h2 (k + 1) (by omega)
          rwa [List.drop_succ_cons] at this)]
        rfl

theorem hasTriple_false_drops {body : List Char} (hb : hasTriple body = false) :
    ∀ k, triplePrefix (body.drop k) = false := by
  unfold hasTriple at hb
  cases h : findFirstTriple body with
  | none => exact ff_none body h
  | some i => rw [h] at hb; simp at hb

theorem ff_wrap (body r2 : List Char)
    (hb : ∀ k, triplePrefix (body.drop k) = false) :
    findFirstTriple (body ++ '\n' :: btk :: btk :: btk :: r2)
      = some (body.length + 1) := by
  apply ff_intro
  · rw [show body.length + 1 = body.length + 1 from rfl, List.drop_append 1]
    rw [List.drop_succ_cons, List.drop_zero]
    simp [triplePrefix, btk]
  · intro k hk
    rw [List.drop_append_of_le_length (by omega)]
    rcases hdk : body.drop k with _ | ⟨d1, _ | ⟨d2, _ | ⟨d3, t⟩⟩⟩
    · simp [triplePrefix, btk]
    · simp [triplePrefix, btk]
    · simp [triplePrefix, btk]
    · have hbk := hb k
      rw [hdk] at hbk
      simp only [triplePrefix, List.cons_append] at hbk ⊢
      exact hbk

theorem loads_btkHead (rest : List Char) : loads (btk :: rest) = none := by
  unfold loads
  rw [show (btk :: rest).length + 1 = rest.length + 1 + 1 from by simp]
  rw [parseValue.eq_def]
  simp only []
  rw [skipWs_not_ws _ (by decide)]
  simp only []
  rw [if_neg (by decide : ¬ btk = '{'), if_neg (by decide : ¬ btk = '['),
    if_neg (by decide : ¬ btk = '"'), if_neg (by decide : ¬ btk = 't'),
    if_neg (by decide : ¬ btk = 'f'), if_neg (by decide : ¬ btk = 'n'),
    if_neg (by decide : ¬ btk = '-'), if_neg (by decide : ¬ btk.isDigit = true)]

theorem wsRunLen_nl_brace (b2 rest : List Char) :
    wsRunLen ('\n' :: '{' :: b2 ++ rest) = 1 := by
  simp [wsRunLen, List.takeWhile_cons, isRegexWs]

theorem findFence_wrap (body : List Char) (hb : hasTriple body = false)
    (b2 : List Char) (hhead : body = '{' :: b2) :
    findFence (fenceWrap body) = some (body ++ ['\n']) := by
  have hbk := hasTriple_false_drops hb
  have hstep1 : fenceWrap body
      = btk :: btk :: btk :: ('j' :: 's' :: 'o' :: 'n' :: '\n' ::
        (body ++ ['\n', btk, btk, btk])) := by
    simp [fenceWrap, fenceOpen, fenceClose]
  unfold findFence
  rw [hstep1]
  rw [show findFirstTriple (btk :: btk :: btk :: ('j' :: 's' :: 'o' :: 'n' :: '\n' ::
        (body ++ ['\n', btk, btk, btk]))) = some 0 from by
    rw [findFirstTriple.eq_def]
    simp]
  simp only [List.drop]
  rw [show ciPrefixJson ('j' :: 's' :: 'o' :: 'n' :: '\n' ::
      (body ++ ['\n', btk, btk, btk])) = true from by
    rw [ciPrefixJson.eq_def]
    simp]
  simp only [if_true, List.drop]
  have hr : '\n' :: (body ++ ['\n', btk, btk, btk])
      = ('\n' :: body) ++ '\n' :: btk :: btk :: btk :: [] := by simp
  have hnlb : ∀ k, triplePrefix (('\n' :: body).drop k) = false := by
    intro k
    match k with
    | 0 =>
      rcases body with _ | ⟨e1, _ | ⟨e2, t⟩⟩ <;> simp [triplePrefix, btk]
    | k + 1 => exact hbk k
  rw [hr, ff_wrap ('\n' :: body) [] hnlb]
  simp only [List.length_cons]
  rw [show ('\n' :: body) ++ '\n' :: btk :: btk :: btk :: []
      = '\n' :: '{' :: b2 ++ ('\n' :: btk :: btk :: btk :: []) from by simp [hhead]]
  rw [wsRunLen_nl_brace]
  rw [show min 1 (body.length + 1 + 1) = 1 from by omega]
  simp only [List.drop]
  subst hhead
  simp [List.take_append_eq_append_take]

theorem pyStrip_obj_nl (inner : List Char) :
    pyStrip (('{' :: (inner ++ ['}'])) ++ ['\n']) = '{' :: (inner ++ ['}']) := by
  unfold pyStrip
  rw [show ('{' :: (inner ++ ['}'])) ++ ['\n'] = '{' :: (inner ++ ['}', '\n'])
    from by simp]
  rw [List.dropWhile_cons_of_neg (by simp [isRegexWs])]
  rw [show ('{' :: (inner ++ ['}', '\n'])).reverse
      = '\n' :: '}' :: (inner.reverse ++ ['{']) from by simp]
  rw [List.dropWhile_cons_of_pos (by simp [isRegexWs])]
  rw [List.dropWhile_cons_of_neg (by simp [isRegexWs])]
  simp

theorem sliceInfixOf (cs : List Char) (a b : Nat) : (cs.drop a).take b <:+: cs :=
  ⟨cs.take a, (cs.drop a).drop b, by
    rw [List.append_assoc, List.take_append_drop, List.take_append_drop]⟩

theorem findFenceInfixOf {cs cap : List Char} (h : findFence cs = some cap) :
    cap <:+: cs := by
  unfold findFence at h
  cases h1 : findFirstTriple cs with
  | none => rw [h1] at h; cases h
  | some i =>
    rw [h1] at h
    simp only [] at h
    by_cases hj : ciPrefixJson (cs.drop (i + 3))
    · rw [if_pos hj] at h
      cases h2 : findFirstTriple ((cs.drop (i + 3)).drop 4) with
      | none => rw [h2] at h; cases h
      | some j =>
        rw [h2] at h
        simp only [Option.some_inj] at h
        rw [← h, List.drop_drop, List.drop_drop]
        exact sliceInfixOf cs _ _
    · rw [if_neg hj] at h
      cases h2 : findFirstTriple (cs.drop (i + 3)) with
      | none => rw [h2] at h; cases h
      | some j =>
        rw [h2] at h
        simp only [Option.some_inj] at h
        rw [← h, List.drop_drop]
        exact sliceInfixOf cs _ _

theorem firstParsableSpan_none {cs : List Char}
    (H : ∀ a b : Nat, loads ((cs.drop a).take b) = none) :
    ∀ l, firstParsableSpan cs l = none := by
  intro l
  induction l with
  | nil => rfl
  | cons p ps ih =>
    unfold firstParsableSpan
    simp only [H p.1 (p.2 + 1 - p.1), Option.isSome_none, Bool.false_eq_true,
      if_false]
    exact ih

theorem find?_first {α : Type} (p : α → Bool) (pre : List α) (o : α) (post : List α)
    (hpre : ∀ x ∈ pre, p x = false) (ho : p o = true) :
    (pre ++ o :: post).find? p = some o := by
  induction pre with
  | nil => simp [List.find?_cons, ho]
  | cons a t ih =>
    have ha := hpre a (by simp)
    simp only [List.cons_append, List.find?_cons, ha]
    exact ih (fun x hx => hpre x (by simp [hx]))

theorem infix_all_none (cs : List Char)
    (h : ((cs.tails.bind List.inits).all fun s => (loads s).isNone) = true) :
    ∀ sub, sub <:+: cs → loads sub = none := by
  intro sub hsub
  obtain ⟨t, hpre, hsuf⟩ := List.infix_iff_prefix_suffix.mp hsub
  have h1 : sub ∈ t.inits := (List.mem_inits _ _).mpr hpre
  have h2 : t ∈ cs.tails := (List.mem_tails _ _).mpr hsuf
  have hm : sub ∈ cs.tails.bind List.inits := by
    rw [List.mem_bind]
    exact ⟨t, h2, h1⟩
  simp only [List.all_eq_true] at h
  have := h sub hm
  simpa [Option.isNone_iff_eq_none] using this

/-- C6 (amended): JSON extraction behaves as specified: (1) text that already
reads as JSON is returned whole (the direct-parse strategy runs first); (2)
for every JSON object whose serialization does not contain three consecutive
backticks, wrapping the serialization in a fenced json block and extracting
returns text that reads back to the same object; (3) on text no contiguous
substring of which reads as JSON, extraction fails with a nonempty
descriptive error.  The unamended claim, quantifying over all objects, fails
when a string inside the object contains three backticks together with a
closing brace. -/
theorem c6_extract_json_behavior :
    (∀ (cs : List Char) (v : Json), loads cs = some v → extract_json cs = .ok cs)
    ∧ (∀ o : Json, isObjB o = true → hasTriple (dumpsVal o) = false →
        ∃ out, extract_json (fenceWrap (dumpsVal o)) = .ok out ∧ loads out = some o)
    ∧ (∀ cs : List Char, (∀ sub, sub <:+: cs → loads sub = none) →
        ∃ msg, extract_json cs = .error msg ∧ msg ≠ []) := by
  refine ⟨?_, ?_, ?_⟩
  · intro cs v h
    have hne : cs ≠ [] := by
      intro e
      subst e
      rw [show loads ([] : List Char) = none from rfl] at h
      cases h
    unfold extract_json
    rw [if_neg (by simp [List.isEmpty_iff]; exact hne), h]
    simp
  · intro o hobj htr
    cases o with
    | null => simp [isObjB] at hobj
    | bool b => simp [isObjB] at hobj
    | num n => simp [isObjB] at hobj
    | str s => simp [isObjB] at hobj
    | arr xs => simp [isObjB] at hobj
    | obj ms =>
      have hshape : dumpsVal (.obj ms) = '{' :: (dumpsMembers ms ++ ['\x7d']) := by
        simp [dumpsVal]
      have hfence := findFence_wrap (dumpsVal (.obj ms)) htr
        (dumpsMembers ms ++ ['\x7d']) hshape
      have hloadcap : loads (dumpsVal (.obj ms) ++ ['\n']) = some (.obj ms) :=
        loads_dumps _ _ (by decide)
      have hloadfence : loads (fenceWrap (dumpsVal (.obj ms))) = none := by
        rw [show fenceWrap (dumpsVal (.obj ms))
            = btk :: (btk :: btk :: 'j' :: 's' :: 'o' :: 'n' :: '\n' ::
              (dumpsVal (.obj ms) ++ ['\n', btk, btk, btk]))
          from by simp [fenceWrap, fenceOpen, fenceClose]]
        exact loads_btkHead _
      refine ⟨dumpsVal (.obj ms), ?_, ?_⟩
      · unfold extract_json
        rw [if_neg (by simp [fenceWrap, fenceOpen])]
        rw [hloadfence]
        simp only [Option.isSome_none, Bool.false_eq_true, if_false]
        rw [hfence]
        simp only []
        rw [hloadcap]
        simp only [Option.isSome_some, if_true]
        rw [hshape, pyStrip_obj_nl]
      · simpa using loads_dumps (.obj ms) [] rfl
  · intro cs H
    have Hab : ∀ a b : Nat, loads ((cs.drop a).take b) = none :=
      fun a b => H _ (sliceInfixOf cs a b)
    by_cases hemp : cs = []
    · subst hemp
      exact ⟨tl "Empty text", rfl, by decide⟩
    · have hloadcs : loads cs = none := H cs ⟨[], [], by simp⟩
      have hbrace : ∃ msg, braceExtract cs = .error msg ∧ msg ≠ [] := by
        unfold braceExtract
        rw [firstParsableSpan_none Hab]
        refine ⟨_, rfl, ?_⟩
        simp [tl]
      unfold extract_json
      rw [if_neg (by simp [List.isEmpty_iff]; exact hemp), hloadcs]
      simp only [Option.isSome_none, Bool.false_eq_true, if_false]
      cases hf : findFence cs with
      | none => exact hbrace
      | some cap =>
        have hcap : loads cap = none := H cap (findFenceInfixOf hf)
        simp only []
        rw [hcap]
        simpa using hbrace

/-- Witness for the amended C6 theorem at concrete inputs: a bare object, a
fenced object, and a text with no JSON in it. -/
theorem c6_extract_json_behavior_witness :
    extract_json (tl "{}") = .ok (tl "{}")
    ∧ (∃ out, extract_json (fenceWrap (dumpsVal (.obj [(tl "a", .str (tl "b"))])))
        = .ok out ∧ loads out = some (.obj [(tl "a", .str (tl "b"))]))
    ∧ (∃ msg, extract_json (tl "hello") = .error msg ∧ msg ≠ []) := by
  refine ⟨?_, ?_, ?_⟩
  · exact c6_extract_json_behavior.1 (tl "{}") (.obj []) rfl
  · exact c6_extract_json_behavior.2.1 (.obj [(tl "a", .str (tl "b"))]) rfl rfl
  · exact c6_extract_json_behavior.2.2 (tl "hello")
      (infix_all_none (tl "hello") (by decide))

/-- Counterexample to C6 as stated: the object `{"a": "<3 backticks>}"}` is
valid JSON, its serialization is wrapped in a fenced json block, yet
extraction fails: the lazy fenced capture stops at the backticks inside the
string literal, and the brace scanner pairs the opening brace with the brace
inside the string literal. -/
theorem c6_claim_counterexample :
    loads (dumpsVal c6obj) = some c6obj
    ∧ isObjB c6obj = true
    ∧ (extract_json (fenceWrap (dumpsVal c6obj))).isOk = false :=
  ⟨rfl, rfl, rfl⟩

/-- C10: the object-coercion step of Decision parsing returns an object
unchanged, returns the first object element of an array, and raises in every
other case, so a model reply wrapping the Decision object in a top-level
array is still accepted. -/
theorem c10_ensure_object_spec :
    (∀ ms, ensure_object (.obj ms) = .ok (.obj ms))
    ∧ (∀ (xs pre : List Json) (o : Json) (post : List Json),
        xs = pre ++ o :: post → (∀ x ∈ pre, isObjB x = false) → isObjB o = true →
        ensure_object (.arr xs) = .ok o)
    ∧ (∀ v : Json, isObjB v = false →
        (∀ xs, v = .arr xs → ∀ x ∈ xs, isObjB x = false) →
        ∃ msg, ensure_object v = .error msg ∧ msg ≠ []) := by
  refine ⟨fun ms => rfl, ?_, ?_⟩
  · intro xs pre o post hxs hpre ho
    subst hxs
    unfold ensure_object
    simp only []
    rw [find?_first isObjB pre o post hpre ho]
  · intro v hv hvarr
    cases v with
    | obj ms => simp [isObjB] at hv
    | arr xs =>
      have hall : ∀ x ∈ xs, isObjB x = false := hvarr xs rfl
      have hfind : xs.find? isObjB = none :=
        List.find?_eq_none.mpr (fun x hx => by simp [hall x hx])
      unfold ensure_object
      simp only []
      rw [hfind]
      exact ⟨tl "Expected object, got list", rfl, by decide⟩
    | null =>
      exact ⟨tl "Expected object, got " ++ pyTypeName Json.null, rfl, by decide⟩
    | bool b =>
      exact ⟨tl "Expected object, got " ++ pyTypeName (Json.bool b), rfl,
        fun h => absurd (List.append_eq_nil.mp h).1 (by decide)⟩
    | num n =>
      exact ⟨tl "Expected object, got " ++ pyTypeName (Json.num n), rfl,
        fun h => absurd (List.append_eq_nil.mp h).1 (by decide)⟩
    | str s =>
      exact ⟨tl "Expected object, got " ++ pyTypeName (Json.str s), rfl,
        fun h => absurd (List.append_eq_nil.mp h).1 (by decide)⟩

/-- Witness for the C10 theorem at concrete inputs: a dict, an array whose
second element is the first dict, and a bare number. -/
theorem c10_ensure_object_spec_witness :
    ensure_object (.obj [(tl "k", .num 1)]) = .ok (.obj [(tl "k", .num 1)])
    ∧ ensure_object (.arr [.str (tl "x"), .obj [(tl "k", .num 1)], .obj []])
        = .ok (.obj [(tl "k", .num 1)])
    ∧ (∃ msg, ensure_object (.num 7) = .error msg ∧ msg ≠ []) := by
  refine ⟨c10_ensure_object_spec.1 _, ?_, ?_⟩
  · exact c10_ensure_object_spec.2.1 _ [.str (tl "x")] (.obj [(tl "k", .num 1)])
      [.obj []] rfl (by intro x hx; simp at hx; rw [hx]; rfl) rfl
  · exact c10_ensure_object_spec.2.2 (.num 7) rfl (by intro xs h; cases h)

/-! Properties of the context store. -/

theorem buildEntries_shape (maxLen : Nat) : ∀ (ops : List ContextOp),
    ops.all isAppendOp = true →
    buildEntries maxLen ops = (sysEntriesOf ops).reverse ++ otherEntriesOf ops := by
  intro ops
  induction ops using List.reverseRecOn with
  | nil => intro h; rfl
  | append_singleton ops op ih =>
    intro h
    simp only [List.all_append, Bool.and_eq_true, List.all_cons, List.all_nil,
      Bool.and_true] at h
    have hstep : buildEntries maxLen (ops ++ [op])
        = applyOp maxLen (buildEntries maxLen ops) op := by
      unfold buildEntries
      rw [List.foldl_append]
      rfl
    rw [hstep, ih h.1]
    cases op with
    | add_system_prompt c =>
      simp [applyOp, sysEntriesOf, otherEntriesOf, List.filterMap_append]
    | add_user_request c =>
      simp [applyOp, sysEntriesOf, otherEntriesOf, List.filterMap_append]
    | add_assistant_response c =>
      simp [applyOp, sysEntriesOf, otherEntriesOf, List.filterMap_append]
    | add_tool_result n r e =>
      simp [applyOp, sysEntriesOf, otherEntriesOf, List.filterMap_append]
    | add_thought r =>
      simp [applyOp, sysEntriesOf, otherEntriesOf, List.filterMap_append]
    | compress_op => simp [isAppendOp] at h
    | clear_op => simp [isAppendOp] at h

theorem mem_sysEntriesOf {ops : List ContextOp} {e : Entry}
    (h : e ∈ sysEntriesOf ops) : e.entry_type = "system" := by
  rcases List.mem_filterMap.mp h with ⟨op, -, heq⟩
  cases op <;> simp at heq
  rw [← heq]

theorem sys_filter_self (ops : List ContextOp) :
    ((sysEntriesOf ops).reverse).filter (fun e => e.entry_type == "system")
      = (sysEntriesOf ops).reverse := by
  apply List.filter_eq_self.mpr
  intro a ha
  rw [List.mem_reverse] at ha
  simp [mem_sysEntriesOf ha]

theorem sys_filter_nonsys (ops : List ContextOp) :
    ((sysEntriesOf ops).reverse).filter
      (fun e => e.entry_type != "system" && e.entry_type != "thought") = [] := by
  rw [List.filter_eq_nil_iff]
  intro a ha
  rw [List.mem_reverse] at ha
  simp [mem_sysEntriesOf ha]

theorem other_filter_sys (ops : List ContextOp) :
    (otherEntriesOf ops).filter (fun e => e.entry_type == "system") = [] := by
  rw [List.filter_eq_nil_iff]
  intro a ha
  rcases List.mem_filterMap.mp ha with ⟨op, -, heq⟩
  cases op with
  | add_tool_result n r e =>
    cases e <;> simp at heq <;> simp [← heq]
  | _ =>
    simp at heq <;> simp [← heq]

theorem other_filter_map (ops : List ContextOp) :
    ((otherEntriesOf ops).filter
        (fun e => e.entry_type != "system" && e.entry_type != "thought")).map
      (fun e => (e.role, e.content)) = specOtherMsgs ops := by
  induction ops with
  | nil => rfl
  | cons op rest ih =>
    cases op with
    | add_tool_result n r e =>
      cases e <;> simp [otherEntriesOf, specOtherMsgs, List.filterMap_cons] <;>
        exact ih
    | add_system_prompt c =>
      simp only [otherEntriesOf, specOtherMsgs, List.filterMap_cons]
      simp only [otherEntriesOf, specOtherMsgs] at ih
      simp [ih]
    | add_user_request c =>
      simp only [otherEntriesOf, specOtherMsgs, List.filterMap_cons]
      simp only [otherEntriesOf, specOtherMsgs] at ih
      simp [ih]
    | add_assistant_response c =>
      simp only [otherEntriesOf, specOtherMsgs, List.filterMap_cons]
      simp only [otherEntriesOf, specOtherMsgs] at ih
      simp [ih]
    | add_thought r =>
      simp only [otherEntriesOf, specOtherMsgs, List.filterMap_cons]
      simp only [otherEntriesOf, specOtherMsgs] at ih
      simp [ih]
    | compress_op =>
      simp only [otherEntriesOf, specOtherMsgs, List.filterMap_cons]
      simp only [otherEntriesOf, specOtherMsgs] at ih
      simp [ih]
    | clear_op =>
      simp only [otherEntriesOf, specOtherMsgs, List.filterMap_cons]
      simp only [otherEntriesOf, specOtherMsgs] at ih
      simp [ih]

theorem sys_map (ops : List ContextOp) :
    (sysEntriesOf ops).map (fun e => (e.role, e.content)) = specSystemMsgs ops := by
  induction ops with
  | nil => rfl
  | cons op rest ih =>
    simp only [sysEntriesOf, specSystemMsgs] at ih
    cases op <;>
      simp only [sysEntriesOf, specSystemMsgs, List.filterMap_cons] <;> simp [ih]

/-- C1 (amended): after any sequence of append operations on a fresh store,
`get_messages` returns all system entries first in reverse order of addition
(`add_system_prompt` inserts at the front), then all non-system entries in
append order with thought entries excluded, then the synthesized goals
message when requested and the goals text is nonempty.  The unamended claim
(system entries in append order) fails as soon as two system prompts are
added. -/
theorem c1_get_messages_order (maxLen : Nat) (ops : List ContextOp)
    (goals : String) (inc : Bool) (h : ops.all isAppendOp = true) :
    get_messages (buildEntries maxLen ops) goals inc
      = (specSystemMsgs ops).reverse ++ specOtherMsgs ops ++ goalsSuffix goals inc := by
  rw [buildEntries_shape maxLen ops h]
  unfold get_messages goalsSuffix
  rw [List.filter_append, List.filter_append, sys_filter_self, sys_filter_nonsys,
    other_filter_sys]
  simp only [List.append_nil, List.nil_append, other_filter_map,
    List.map_reverse, sys_map]

/-- Witness for the amended C1 theorem on a concrete operation sequence. -/
theorem c1_get_messages_order_witness :
    ([ContextOp.add_system_prompt "S1", ContextOp.add_user_request "u",
      ContextOp.add_thought "th", ContextOp.add_system_prompt "S2",
      ContextOp.add_tool_result "t" "r" false]).all isAppendOp = true
    ∧ get_messages (buildEntries 8000
        [ContextOp.add_system_prompt "S1", ContextOp.add_user_request "u",
         ContextOp.add_thought "th", ContextOp.add_system_prompt "S2",
         ContextOp.add_tool_result "t" "r" false]) "" true
      = [("system", "S2"), ("system", "S1"), ("user", "u"), ("assistant", "[t] r")] := by
  refine ⟨rfl, ?_⟩
  have h := c1_get_messages_order 8000
    [ContextOp.add_system_prompt "S1", ContextOp.add_user_request "u",
     ContextOp.add_thought "th", ContextOp.add_system_prompt "S2",
     ContextOp.add_tool_result "t" "r" false] "" true (by decide)
  rw [h]
  decide

/-- Counterexample to C1 as stated: adding two system prompts A then B makes
`get_messages` return B before A, because `add_system_prompt` inserts at
index 0; the claimed append order would return A before B. -/
theorem c1_claim_counterexample :
    get_messages (buildEntries 8000
        [ContextOp.add_system_prompt "A", ContextOp.add_system_prompt "B"]) "" false
      = [("system", "B"), ("system", "A")]
    ∧ specSystemMsgs [ContextOp.add_system_prompt "A", ContextOp.add_system_prompt "B"]
        ++ specOtherMsgs [ContextOp.add_system_prompt "A", ContextOp.add_system_prompt "B"]
        ++ goalsSuffix "" false
      = [("system", "A"), ("system", "B")]
    ∧ ([("system", "B"), ("system", "A")] : List (String × String))
        ≠ [("system", "A"), ("system", "B")] := by
  refine ⟨by decide, by decide, by decide⟩

theorem filter_sys_of_split {s t : List Entry}
    (hs : ∀ e ∈ s, e.entry_type = "system") (ht : ∀ e ∈ t, e.entry_type ≠ "system") :
    (s ++ t).filter (fun e => e.entry_type == "system") = s := by
  rw [List.filter_append]
  rw [List.filter_eq_self.mpr (fun a ha => by simp [hs a ha])]
  rw [List.filter_eq_nil_iff.mpr (fun a ha => by simp [ht a ha])]
  simp

theorem applyOp_preserves (maxLen : Nat) (es : List Entry) (op : ContextOp)
    (h : SystemsFirst es) : SystemsFirst (applyOp maxLen es op) := by
  obtain ⟨s, t, hes, hs, ht⟩ := h
  cases op with
  | add_system_prompt c =>
    refine ⟨⟨"system", c, "system"⟩ :: s, t, ?_, ?_, ht⟩
    · rw [hes]; rfl
    · intro e he
      rcases List.mem_cons.mp he with he | he
      · rw [he]
      · exact hs e he
  | add_user_request c =>
    refine ⟨s, t ++ [⟨"user", c, "message"⟩], by rw [hes]; simp [applyOp], hs, ?_⟩
    intro e he
    rcases List.mem_append.mp he with he | he
    · exact ht e he
    · simp at he; rw [he]; simp
  | add_assistant_response c =>
    refine ⟨s, t ++ [⟨"assistant", c, "message"⟩], by rw [hes]; simp [applyOp], hs, ?_⟩
    intro e he
    rcases List.mem_append.mp he with he | he
    · exact ht e he
    · simp at he; rw [he]; simp
  | add_tool_result n r err =>
    refine ⟨s, t ++ [⟨"assistant", "[" ++ n ++ "] " ++ r,
      if err then "error" else "tool_result"⟩], by rw [hes]; simp [applyOp], hs, ?_⟩
    intro e he
    rcases List.mem_append.mp he with he | he
    · exact ht e he
    · simp at he; rw [he]; cases err <;> simp
  | add_thought r =>
    refine ⟨s, t ++ [⟨"assistant", "[THOUGHT] " ++ r, "thought"⟩],
      by rw [hes]; simp [applyOp], hs, ?_⟩
    intro e he
    rcases List.mem_append.mp he with he | he
    · exact ht e he
    · simp at he; rw [he]; simp
  | clear_op =>
    refine ⟨s, [], ?_, hs, by simp⟩
    show es.filter (fun e => e.entry_type == "system") = s ++ []
    rw [hes, filter_sys_of_split hs ht]
    simp
  | compress_op =>
    show SystemsFirst (compress_if_needed maxLen es).1
    unfold compress_if_needed
    by_cases htrig : totalLength es ≤ maxLen
    · rw [if_pos htrig]
      exact ⟨s, t, hes, hs, ht⟩
    · rw [if_neg htrig]
      simp only []
      rw [hes, filter_sys_of_split hs ht, ← hes]
      by_cases hlen : 20 < es.length
      · rw [if_pos hlen]
        by_cases hk : es.length - 20 ≤ s.length
        · rw [hes, List.drop_append_of_le_length (by rw [hes] at hk; exact hk)]
          refine ⟨s ++ List.drop ((s ++ t).length - 20) s, t,
            by rw [List.append_assoc], ?_, ht⟩
          intro e he
          rcases List.mem_append.mp he with he | he
          · exact hs e he
          · exact hs e (List.drop_subset _ _ he)
        · have hk2 : es.length - 20 = s.length + (es.length - 20 - s.length) := by
            omega
          rw [hk2, hes, List.drop_append ((s ++ t).length - 20 - s.length)]
          refine ⟨s, t.drop ((s ++ t).length - 20 - s.length), rfl, hs, ?_⟩
          intro e he
          exact ht e (List.drop_subset _ _ he)
      · rw [if_neg hlen]
        exact ⟨s, [], by simp, hs, by simp⟩

/-- C9: starting from an empty store, after any sequence of append,
compress and clear operations, every stored system entry precedes every
stored non-system entry. -/
theorem c9_stored_system_first (maxLen : Nat) (ops : List ContextOp) :
    SystemsFirst (buildEntries maxLen ops) := by
  suffices h : ∀ es, SystemsFirst es → SystemsFirst (ops.foldl (applyOp maxLen) es) by
    exact h [] ⟨[], [], rfl, by simp, by simp⟩
  induction ops with
  | nil => intro es h; exact h
  | cons op rest ih =>
    intro es h
    exact ih _ (applyOp_preserves maxLen es op h)

/-! ### C2: compression -/

theorem filter_sys_filter (es : List Entry) :
    ((es.filter (fun e => e.entry_type == "system")).filter
      (fun e => e.entry_type == "system"))
      = es.filter (fun e => e.entry_type == "system") := by
  apply List.filter_eq_self.mpr
  intro a ha
  exact (List.mem_filter.mp ha).2

/-- C2 (amended): `compress_if_needed` is the identity (with no archive)
while the total content length is within the ceiling.  When it triggers on a
store of more than `system + 20` entries whose system entries come first, it
keeps the system prefix plus the 20 most recent entries and archives exactly
the entries strictly between them, verbatim and in order.  However, when it
triggers on a store of at most 20 entries it keeps only the system entries,
dropping every other entry with no archive — contradicting the claimed
"keeps the most recent K entries" and "archives every dropped entry" — and a
second invocation right after a compression need not be a no-op, since the
kept entries can still exceed the ceiling.  After any invocation the live
entry count is within system-count + 20 unless the ceiling already holds. -/
theorem c2_compress_behavior (maxLen : Nat) (es s t : List Entry)
    (hes : es = s ++ t) (hs : ∀ e ∈ s, e.entry_type = "system")
    (ht : ∀ e ∈ t, e.entry_type ≠ "system")
    (htrig : maxLen < totalLength es) (hlen : s.length + 20 < es.length) :
    compress_if_needed maxLen es
      = (s ++ es.drop (es.length - 20), some (t.take (es.length - 20 - s.length)))
    ∧ es = s ++ (t.take (es.length - 20 - s.length) ++ es.drop (es.length - 20))
    ∧ (∀ maxLen2 es2, totalLength es2 ≤ maxLen2 →
        compress_if_needed maxLen2 es2 = (es2, none))
    ∧ (∀ maxLen2 es2, maxLen2 < totalLength es2 → es2.length ≤ 20 →
        compress_if_needed maxLen2 es2
          = (es2.filter (fun e => e.entry_type == "system"), none))
    ∧ (∀ maxLen2 es2,
        totalLength (compress_if_needed maxLen2 es2).1 ≤ maxLen2
        ∨ (compress_if_needed maxLen2 es2).1.length
            ≤ ((compress_if_needed maxLen2 es2).1.filter
                (fun e => e.entry_type == "system")).length + 20) := by
  have hl : es.length = s.length + t.length := by rw [hes]; simp
  refine ⟨?_, ?_, ?_, ?_, ?_⟩
  · unfold compress_if_needed
    rw [if_neg (by omega)]
    simp only []
    have hfil : es.filter (fun e => e.entry_type == "system") = s := by
      rw [hes]; exact filter_sys_of_split hs ht
    rw [hfil, if_pos (show 20 < es.length by omega), if_pos hlen]
    have hdrop : es.drop s.length = t := by rw [hes]; exact List.drop_left s t
    rw [hdrop]
    have htne : t ≠ [] := by intro h0; rw [h0] at hl; simp at hl; omega
    obtain ⟨t0, ts, rfl⟩ := List.exists_cons_of_ne_nil htne
    rw [show es.length - 20 - s.length = (es.length - 20 - s.length - 1) + 1 from
        by omega, List.take_succ_cons]
    rw [if_neg (by simp)]
  · have h20 : 20 ≤ t.length := by omega
    rw [hes]
    simp only [List.length_append]
    rw [show s.length + t.length - 20 = s.length + (t.length - 20) from by omega,
      List.drop_append (t.length - 20),
      show s.length + (t.length - 20) - s.length = t.length - 20 from by omega,
      List.take_append_drop]
  · intro m e h
    unfold compress_if_needed
    rw [if_pos h]
  · intro m e h1 h2
    unfold compress_if_needed
    rw [if_neg (by omega)]
    simp only []
    rw [if_neg (show ¬ 20 < e.length by omega),
      if_neg (show ¬ (e.filter (fun x => x.entry_type == "system")).length + 20
          < e.length by omega)]
    simp
  · intro m e
    by_cases h : totalLength e ≤ m
    · left
      rw [show compress_if_needed m e = (e, none) from
          by unfold compress_if_needed; rw [if_pos h]]
      exact h
    · right
      unfold compress_if_needed
      rw [if_neg h]
      simp only []
      by_cases h20 : 20 < e.length
      · rw [if_pos h20]
        rw [List.filter_append, filter_sys_filter]
        simp only [List.length_append, List.length_drop]
        omega
      · rw [if_neg h20]
        rw [List.append_nil, filter_sys_filter]
        omega

/-- Witness for the amended C2 theorem: compressing one system entry plus 25
four-character user messages under ceiling 10 keeps the system entry and the
20 most recent messages and archives the five dropped ones. -/
theorem c2_compress_behavior_witness :
    compress_if_needed 10 c2demo
      = (⟨"system", "S", "system"⟩ :: List.replicate 20 ⟨"user", "mmmm", "message"⟩,
         some (List.replicate 5 ⟨"user", "mmmm", "message"⟩)) := by
  have h := (c2_compress_behavior 10 c2demo [⟨"system", "S", "system"⟩]
      (List.replicate 25 ⟨"user", "mmmm", "message"⟩) rfl (by decide) (by decide)
      (by decide) (by decide)).1
  rw [h]
  decide

/-- Counterexample to C2 as stated: a triggered compression of three
non-system entries keeps none of the most recent entries and archives
nothing, and compressing 25 user messages under ceiling 10 leaves 20
messages whose immediate re-compression empties the store — not a no-op. -/
theorem c2_claim_counterexample :
    compress_if_needed 5 c2small = ([], none)
    ∧ c2small ≠ []
    ∧ (compress_if_needed 10 c2mid).1
        = List.replicate 20 ⟨"user", "mmmm", "message"⟩
    ∧ compress_if_needed 10 (compress_if_needed 10 c2mid).1 = ([], none)
    ∧ List.replicate 20 (⟨"user", "mmmm", "message"⟩ : Entry) ≠ ([] : List Entry) := by
  refine ⟨by decide, by decide, by decide, by decide, by decide⟩

/-! ### C3 and C4: the chain, tool and skill executors -/

theorem loads_dumps_nil (o : Json) : loads (dumpsVal o) = some o := by
  have h := loads_dumps o [] (by decide)
  rwa [List.append_nil] at h

theorem chainStepsRun_cons_exec {ex : Nat → ExecBehavior} {fs : List (List Char × Json)}
    {t : List Char} (rest : List Json) (i n tok : Nat)
    (hty : jGet fs (tl "type") = some (.str t))
    (hsk : (t == tl "skill") = false)
    (htc : (t == tl "tool" || t == tl "chain") = true) :
    chainStepsRun ex (Json.obj fs :: rest) i n tok
      = match ex n with
        | .ok tk => chainStepsRun ex rest (i + 1) (n + 1) (tok + tk)
        | .failure err =>
          some { success := false, error := some (tl "Step failed: " ++ err),
                 summary := tl "Step " ++ natChars i ++ tl " failed",
                 step_index := some i, executed := n + 1, tokens_used := none }
        | .raise msg =>
          some { success := false, error := some msg,
                 summary := tl "Exception at step " ++ natChars i,
                 step_index := some i, executed := n + 1, tokens_used := none } := by
  simp only [chainStepsRun]
  rw [hty]
  simp only [hsk, htc]
  simp

/-- C3 (amended): on a chain `[A, B, C]` of dictionary steps where `A` and
`B` have type `"tool"`, the first executor invocation succeeds and the
second fails with inner error `e`, `ChainSubAgent.execute` returns a failed
result after exactly two executor invocations — `C` is never reached — with
`step_index` 2 in the metadata, summary naming step 2, and error
`"Step failed: " ++ e`; the error field itself does not carry the step
index, contrary to the claim (the index lives in the summary and metadata).
A command that does not parse as JSON, a parsed command that is not a list,
and a first step with an unknown type likewise fail immediately with zero
executor invocations. -/
theorem c3_chain_short_circuit (ex : Nat → ExecBehavior)
    (fsA fsB : List (List Char × Json)) (C : Json) (tkA : Nat) (e : List Char)
    (htA : jGet fsA (tl "type") = some (.str (tl "tool")))
    (htB : jGet fsB (tl "type") = some (.str (tl "tool")))
    (hex0 : ex 0 = .ok tkA) (hex1 : ex 1 = .failure e) :
    chain_execute ex (dumpsVal (.arr [Json.obj fsA, Json.obj fsB, C]))
      = some { success := false, error := some (tl "Step failed: " ++ e),
               summary := tl "Step 2 failed", step_index := some 2,
               executed := 2, tokens_used := none }
    ∧ (∀ cs, loads cs = none →
        chain_execute ex cs
          = some { success := false,
                   error := some (tl "Failed to parse chain JSON"),
                   summary := tl "Invalid chain definition", step_index := none,
                   executed := 0, tokens_used := none })
    ∧ (∀ v : Json, (∀ xs, v ≠ .arr xs) →
        chain_execute ex (dumpsVal v)
          = some { success := false,
                   error := some (tl "Chain must be a list of steps"),
                   summary := tl "Invalid chain format", step_index := none,
                   executed := 0, tokens_used := none })
    ∧ (∀ fs u rest i n tok, jGet fs (tl "type") = some (.str u) →
        u ≠ tl "skill" → u ≠ tl "tool" → u ≠ tl "chain" →
        chainStepsRun ex (Json.obj fs :: rest) i n tok
          = some { success := false,
                   error := some (tl "SubAgent type '" ++ u ++ tl "' not found"),
                   summary := tl "SubAgent not found at step " ++ natChars i,
                   step_index := some i, executed := n, tokens_used := none }) := by
  refine ⟨?_, ?_, ?_, ?_⟩
  · unfold chain_execute
    rw [loads_dumps_nil]
    simp only []
    rw [chainStepsRun_cons_exec [Json.obj fsB, C] 1 0 0 htA (by decide) (by decide),
      hex0]
    simp only []
    rw [chainStepsRun_cons_exec [C] 2 1 (0 + tkA) htB (by decide) (by decide), hex1]
    rfl
  · intro cs h
    unfold chain_execute
    rw [h]
  · intro v hv
    unfold chain_execute
    rw [loads_dumps_nil]
    cases v with
    | arr xs => exact absurd rfl (hv xs)
    | _ => rfl
  · intro fs u rest i n tok h hu1 hu2 hu3
    simp only [chainStepsRun]
    rw [h]
    simp only [beq_eq_false_iff_ne.mpr hu1,
      show (u == tl "tool" || u == tl "chain") = false from by
        simp [beq_eq_false_iff_ne.mpr hu2, beq_eq_false_iff_ne.mpr hu3]]
    simp

/-- Witness for the amended C3 theorem on a concrete three-step tool chain
whose second tool invocation fails with error `boom`. -/
theorem c3_chain_short_circuit_witness :
    chain_execute c3exec (dumpsVal (.arr [c3stepA, c3stepB, c3stepC]))
      = some { success := false, error := some (tl "Step failed: boom"),
               summary := tl "Step 2 failed", step_index := some 2,
               executed := 2, tokens_used := none } := by
  have h := (c3_chain_short_circuit c3exec
      [(tl "type", .str (tl "tool")), (tl "command", .str (tl "a"))]
      [(tl "type", .str (tl "tool")), (tl "command", .str (tl "b"))]
      c3stepC 5 (tl "boom") rfl rfl rfl rfl).1
  rw [show c3stepA
      = Json.obj [(tl "type", .str (tl "tool")), (tl "command", .str (tl "a"))]
    from rfl,
    show c3stepB
      = Json.obj [(tl "type", .str (tl "tool")), (tl "command", .str (tl "b"))]
    from rfl, h]
  rfl

/-- Counterexample to C3 as stated: the error field of the failed chain
result is `Step failed: boom`, which does not contain the failing step's
index `2` (the claim requires the error to contain the step index). -/
theorem c3_claim_counterexample :
    (chain_execute c3exec (dumpsVal (.arr [c3stepA, c3stepB, c3stepC]))).map
        (fun r => r.error) = some (some (tl "Step failed: boom"))
    ∧ ¬ (tl "2" <:+: tl "Step failed: boom") := by
  exact ⟨rfl, by decide⟩

theorem truthy_getD {o : Option (List Char)} (h : truthyStr o = true) :
    o.getD [] ≠ [] := by
  cases o with
  | none => simp [truthyStr] at h
  | some s =>
    cases s with
    | nil => simp [truthyStr] at h
    | cons c cs => simp

theorem gsoc_ne_nil (r : SkillResultM) : get_summary_or_confirmation r ≠ [] := by
  unfold get_summary_or_confirmation
  by_cases h1 : truthyStr r.summary = true
  · rw [if_pos h1]; exact truthy_getD h1
  · rw [if_neg h1]
    by_cases h2 : truthyStr r.confirmation = true
    · rw [if_pos h2]; exact truthy_getD h2
    · rw [if_neg h2]
      by_cases h3 : truthyStr r.details = true
      · rw [if_pos h3]; exact truthy_getD h3
      · rw [if_neg h3]; decide

theorem chainStepsRun_error_src (ex : Nat → ExecBehavior) :
    ∀ (steps : List Json) (i n tok : Nat) (r : ChainResult),
      chainStepsRun ex steps i n tok = some r → r.success = false →
      ∃ e, r.error = some e ∧ (e ≠ [] ∨ ∃ m, ex m = ExecBehavior.raise e) := by
  intro steps
  induction steps with
  | nil =>
    intro i n tok r hr hs
    simp only [chainStepsRun, Option.some.injEq] at hr
    subst hr
    simp at hs
  | cons step rest ih =>
    intro i n tok r hr hs
    cases step with
    | obj fs =>
      simp only [chainStepsRun] at hr
      cases hty : jGet fs (tl "type") with
      | some v =>
        cases v with
        | str t =>
          rw [hty] at hr
          simp only [] at hr
          by_cases h1 : (t == tl "skill") = true
          · rw [if_pos h1] at hr
            exact ih _ _ _ _ hr hs
          · rw [if_neg h1] at hr
            by_cases h2 : (t == tl "tool" || t == tl "chain") = true
            · rw [if_pos h2] at hr
              cases hx : ex n with
              | ok tk =>
                rw [hx] at hr
                simp only [] at hr
                exact ih _ _ _ _ hr hs
              | failure err =>
                rw [hx] at hr
                simp only [Option.some.injEq] at hr
                subst hr
                refine ⟨_, rfl, Or.inl ?_⟩
                intro h0
                exact absurd (List.append_eq_nil.mp h0).1 (by decide)
              | raise msg =>
                rw [hx] at hr
                simp only [Option.some.injEq] at hr
                subst hr
                exact ⟨msg, rfl, Or.inr ⟨n, hx⟩⟩
            · rw [if_neg h2] at hr
              simp only [Option.some.injEq] at hr
              subst hr
              refine ⟨_, rfl, Or.inl ?_⟩
              intro h0
              exact absurd (List.append_eq_nil.mp h0).2 (by decide)
        | null =>
          rw [hty] at hr
          simp only [Option.some.injEq] at hr
          subst hr
          refine ⟨_, rfl, Or.inl ?_⟩
          intro h0
          exact absurd (List.append_eq_nil.mp h0).2 (by decide)
        | bool b =>
          rw [hty] at hr
          simp only [Option.some.injEq] at hr
          subst hr
          refine ⟨_, rfl, Or.inl ?_⟩
          intro h0
          exact absurd (List.append_eq_nil.mp h0).2 (by decide)
        | num m =>
          rw [hty] at hr
          simp only [Option.some.injEq] at hr
          subst hr
          refine ⟨_, rfl, Or.inl ?_⟩
          intro h0
          exact absurd (List.append_eq_nil.mp h0).2 (by decide)
        | arr xs =>
          rw [hty] at hr
          simp only [Option.some.injEq] at hr
          subst hr
          refine ⟨_, rfl, Or.inl ?_⟩
          intro h0
          exact absurd (List.append_eq_nil.mp h0).2 (by decide)
        | obj fsv =>
          rw [hty] at hr
          simp only [Option.some.injEq] at hr
          subst hr
          refine ⟨_, rfl, Or.inl ?_⟩
          intro h0
          exact absurd (List.append_eq_nil.mp h0).2 (by decide)
      | none =>
        rw [hty] at hr
        simp only [Option.some.injEq] at hr
        subst hr
        refine ⟨_, rfl, Or.inl ?_⟩
        intro h0
        exact absurd (List.append_eq_nil.mp h0).2 (by decide)
    | null =>
      simp only [chainStepsRun] at hr
      exact Option.noConfusion hr
    | bool b =>
      simp only [chainStepsRun] at hr
      exact Option.noConfusion hr
    | num m =>
      simp only [chainStepsRun] at hr
      exact Option.noConfusion hr
    | str s =>
      simp only [chainStepsRun] at hr
      exact Option.noConfusion hr
    | arr xs =>
      simp only [chainStepsRun] at hr
      exact Option.noConfusion hr

/-- C4 (amended): every failed executor result carries `error = some e`, and
`e` is non-empty on every path except where it is `str(exc)` of a raised
exception, which may render as the empty string: for the tool executor, `e`
is non-empty or the underlying tool raised exactly `e`; for the skill
executor, `e` is non-empty (a failed `SkillResult` yields its
`get_summary_or_confirmation`, which falls through to the non-empty literal
`"Task completed"`) or the inner skill execution raised exactly `e`; for the
chain executor, `e` is non-empty or some nested executor invocation raised
exactly `e`. -/
theorem c4_failed_error_nonempty :
    (∀ tools cmd outcome, (tool_execute tools cmd outcome).1 = false →
      ∃ e, (tool_execute tools cmd outcome).2 = some e
        ∧ (e ≠ [] ∨ outcome = ToolOutcome.raise e))
    ∧ (∀ sr raised, (skill_sub_execute sr raised).1 = false →
      ∃ e, (skill_sub_execute sr raised).2 = some e
        ∧ (e ≠ [] ∨ raised = some e))
    ∧ (∀ (ex : Nat → ExecBehavior) cmd r, chain_execute ex cmd = some r →
        r.success = false →
      ∃ e, r.error = some e ∧ (e ≠ [] ∨ ∃ m, ex m = ExecBehavior.raise e)) := by
  refine ⟨?_, ?_, ?_⟩
  · intro tools cmd outcome hf
    unfold tool_execute at hf ⊢
    by_cases hmem : tools.contains cmd = true
    · rw [if_pos hmem] at hf ⊢
      cases outcome with
      | ret => simp at hf
      | raise msg => exact ⟨msg, rfl, Or.inr rfl⟩
    · rw [if_neg hmem]
      refine ⟨_, rfl, Or.inl ?_⟩
      intro h0
      exact absurd (List.append_eq_nil.mp h0).1 (by decide)
  · intro sr raised hf
    cases raised with
    | some msg => exact ⟨msg, rfl, Or.inr rfl⟩
    | none =>
      unfold skill_sub_execute at hf ⊢
      simp only [] at hf ⊢
      rw [hf]
      exact ⟨_, by simp, Or.inl (gsoc_ne_nil sr)⟩
  · intro ex cmd r hr hs
    unfold chain_execute at hr
    cases hload : loads cmd with
    | none =>
      rw [hload] at hr
      simp only [Option.some.injEq] at hr
      subst hr
      exact ⟨_, rfl, Or.inl (by decide)⟩
    | some v =>
      rw [hload] at hr
      cases v with
      | arr steps =>
        simp only [] at hr
        exact chainStepsRun_error_src ex steps 1 0 0 r hr hs
      | null =>
        simp only [Option.some.injEq] at hr
        subst hr
        exact ⟨_, rfl, Or.inl (by decide)⟩
      | bool b =>
        simp only [Option.some.injEq] at hr
        subst hr
        exact ⟨_, rfl, Or.inl (by decide)⟩
      | num m =>
        simp only [Option.some.injEq] at hr
        subst hr
        exact ⟨_, rfl, Or.inl (by decide)⟩
      | str s =>
        simp only [Option.some.injEq] at hr
        subst hr
        exact ⟨_, rfl, Or.inl (by decide)⟩
      | obj fs =>
        simp only [Option.some.injEq] at hr
        subst hr
        exact ⟨_, rfl, Or.inl (by decide)⟩

/-- Counterexample to C4 as stated: a tool that raises an exception whose
`str` is empty produces a failed result whose error string is empty. -/
theorem c4_claim_counterexample :
    tool_execute [tl "t"] (tl "t") (ToolOutcome.raise []) = (false, some [])
    ∧ ([] : List Char).length = 0 := by
  exact ⟨rfl, rfl⟩

/-! ### C5: skill tool filtering -/

theorem fat_map_fst (allowed : List (List Char)) (avail : List (List Char × Nat)) :
    ((allowed.filterMap fun n =>
        (avail.find? (fun p => p.1 == n)).map (fun p => (n, p.2))).map Prod.fst)
      = allowed.filter (fun n => avail.any (fun p => p.1 == n)) := by
  induction allowed with
  | nil => rfl
  | cons a rest ih =>
    simp only [List.filterMap_cons, List.filter_cons]
    cases hf : avail.find? (fun p => p.1 == a) with
    | none =>
      have hany : avail.any (fun p => p.1 == a) = false := by
        rw [List.find?_eq_none] at hf
        by_contra hc
        rw [Bool.not_eq_false, List.any_eq_true] at hc
        obtain ⟨x, hx, hpx⟩ := hc
        exact hf x hx hpx
      rw [hany]
      simp [ih]
    | some q =>
      have hq := List.find?_some hf
      have hany : avail.any (fun p => p.1 == a) = true :=
        List.any_eq_true.mpr ⟨q, List.mem_of_find?_eq_some hf, hq⟩
      rw [hany]
      simp [ih]

theorem fat_mem_lookup {allowed : List (List Char)} {avail : List (List Char × Nat)}
    {p : List Char × Nat}
    (hp : p ∈ allowed.filterMap fun n =>
        (avail.find? (fun q => q.1 == n)).map (fun q => (n, q.2))) :
    avail.find? (fun q => q.1 == p.1) = some p := by
  obtain ⟨n, -, heq⟩ := List.mem_filterMap.mp hp
  cases hf : avail.find? (fun q => q.1 == n) with
  | none => rw [hf] at heq; exact Option.noConfusion heq
  | some q =>
    rw [hf] at heq
    simp only [Option.map_some', Option.some.injEq] at heq
    have hq1 : q.1 = n := by
      have := List.find?_some hf
      simpa using this
    have hpq : p = q := by
      rw [← heq, ← hq1]
    rw [hpq, hq1]
    exact hf

/-- C5 (amended): when a skill declares a non-empty `allowed_tools` list,
the filtered tool dictionary is exactly the name-wise intersection of
`allowed_tools` and the supplied map — its keys are the allowed names
present in the supplied map, in declaration order, and each entry carries
the supplied map's value for that name (in particular
`allowed_tools={"x"}` with available `{"x": T1, "y": T2}` yields exactly
`{"x": T1}`); and whenever some allowed name is absent from the supplied
map, `execute_skill` fails immediately with an `errors` list naming each
missing tool.  However, a skill whose `allowed_tools` is empty receives the
entire supplied map, not the empty intersection the claim requires. -/
theorem c5_skill_tool_filtering :
    (∀ (allowed : List (List Char)) (avail : List (List Char × Nat)),
      allowed ≠ [] →
      (filter_allowed_tools allowed avail).map Prod.fst
        = allowed.filter (fun n => avail.any (fun p => p.1 == n)))
    ∧ (∀ (allowed : List (List Char)) (avail : List (List Char × Nat)) p,
        allowed ≠ [] → p ∈ filter_allowed_tools allowed avail →
        avail.find? (fun q => q.1 == p.1) = some p)
    ∧ filter_allowed_tools [tl "x"] [(tl "x", 1), (tl "y", 2)] = [(tl "x", 1)]
    ∧ (∀ avail : List (List Char × Nat), filter_allowed_tools [] avail = avail)
    ∧ (∀ (allowed : List (List Char)) (avail : List (List Char × Nat)) n,
        n ∈ allowed → avail.any (fun p => p.1 == n) = false →
        ∃ errs, execute_skill_validate allowed avail = some errs
          ∧ (tl "Missing tool: " ++ n) ∈ errs) := by
  have hbody : ∀ (allowed : List (List Char)) (avail : List (List Char × Nat)),
      allowed ≠ [] →
      filter_allowed_tools allowed avail
        = allowed.filterMap fun n =>
            (avail.find? (fun p => p.1 == n)).map (fun p => (n, p.2)) := by
    intro allowed avail h
    unfold filter_allowed_tools
    rw [if_neg (by simp [List.isEmpty_iff, h])]
  refine ⟨?_, ?_, by decide, ?_, ?_⟩
  · intro allowed avail h
    rw [hbody allowed avail h]
    exact fat_map_fst allowed avail
  · intro allowed avail p h hp
    rw [hbody allowed avail h] at hp
    exact fat_mem_lookup hp
  · intro avail
    rfl
  · intro allowed avail n hn hany
    have hfilt : (filter_allowed_tools allowed avail).any (fun p => p.1 == n)
        = false := by
      by_cases hall : allowed = []
      · subst hall
        rw [show filter_allowed_tools [] avail = avail from rfl]
        exact hany
      · by_contra hc
        rw [Bool.not_eq_false, List.any_eq_true] at hc
        obtain ⟨p, hp, hpn⟩ := hc
        rw [hbody allowed avail hall] at hp
        have hfind := fat_mem_lookup hp
        have hp1 : p.1 = n := by simpa using hpn
        have hmem := List.mem_of_find?_eq_some hfind
        have htrue : avail.any (fun q => q.1 == n) = true :=
          List.any_eq_true.mpr ⟨p, hmem, by simp [hp1]⟩
        rw [hany] at htrue
        exact Bool.noConfusion htrue
    have hmem : n ∈ missing_tools allowed (filter_allowed_tools allowed avail) := by
      unfold missing_tools
      rw [List.mem_filter]
      exact ⟨hn, by rw [hfilt]; decide⟩
    refine ⟨(missing_tools allowed (filter_allowed_tools allowed avail)).map
        (fun t => tl "Missing tool: " ++ t), ?_, ?_⟩
    · unfold execute_skill_validate
      simp only []
      rw [if_neg ?_]
      intro hemp
      rw [List.isEmpty_iff] at hemp
      rw [hemp] at hmem
      exact absurd hmem (List.not_mem_nil n)
    · exact List.mem_map.mpr ⟨n, hmem, rfl⟩

/-- Counterexample to C5 as stated: a skill with an empty `allowed_tools`
list is given the entire supplied tool map instead of the empty name-wise
intersection. -/
theorem c5_claim_counterexample :
    filter_allowed_tools [] [(tl "x", 1)] = [(tl "x", 1)]
    ∧ ([] : List (List Char)).filter
        (fun n => [(tl "x", 1)].any (fun p => p.1 == n)) = []
    ∧ [(tl "x", 1)] ≠ ([] : List (List Char × Nat)) := by
  exact ⟨rfl, rfl, by decide⟩

/-! ### C7: the orchestrator progress check -/

theorem agentInjectAux_think (act : Nat → NextAction) (flag : Nat → Bool)
    (hact : ∀ k, act k = NextAction.think) (hflag : ∀ k, flag k = false) :
    ∀ fuel step, agentInjectAux act flag step fuel
      = (List.range' step fuel).filter (fun s => decide (5 ≤ s)) := by
  intro fuel
  induction fuel with
  | zero => intro step; rfl
  | succ fuel ih =>
    intro step
    simp only [agentInjectAux, hact, hflag]
    rw [show List.range' step (fuel + 1) = step :: List.range' (step + 1) fuel from
      List.range'_succ step fuel 1, List.filter_cons]
    by_cases h5 : 5 ≤ step
    · simp [h5, ih]
    · simp [h5, ih]

/-- C7 (amended): in a run that always continues thinking with the
tangible-results flag never set, the progress-check system reminder is
injected at EVERY step whose 0-based index is at least 5 — the first one at
index 5 (the sixth step), and then again at each subsequent step while the
condition persists, `max_steps - 5` times in total — not exactly once as
claimed. -/
theorem c7_progress_check_repeats (act : Nat → NextAction) (flag : Nat → Bool)
    (max_steps : Nat) (hact : ∀ k, act k = NextAction.think)
    (hflag : ∀ k, flag k = false) :
    agentInjections act flag max_steps
      = (List.range max_steps).filter (fun s => decide (5 ≤ s))
    ∧ (6 ≤ max_steps →
        agentInjections act flag max_steps = List.range' 5 (max_steps - 5))
    ∧ (6 ≤ max_steps →
        (agentInjections act flag max_steps).head? = some 5
        ∧ (agentInjections act flag max_steps).length = max_steps - 5) := by
  have h1 : agentInjections act flag max_steps
      = (List.range max_steps).filter (fun s => decide (5 ≤ s)) := by
    unfold agentInjections
    rw [agentInjectAux_think act flag hact hflag max_steps 0, List.range_eq_range']
  have h2 : 6 ≤ max_steps →
      agentInjections act flag max_steps = List.range' 5 (max_steps - 5) := by
    intro h6
    rw [h1, List.range_eq_range']
    have hsplit : List.range' 0 5 ++ List.range' 5 (max_steps - 5)
        = List.range' 0 max_steps := by
      have h := List.range'_append 0 5 (max_steps - 5) 1
      simp only [Nat.one_mul, Nat.zero_add] at h
      rw [show max_steps - 5 + 5 = max_steps from by omega] at h
      exact h
    rw [← hsplit, List.filter_append]
    rw [show (List.range' 0 5).filter (fun s => decide (5 ≤ s)) = [] from by decide]
    rw [List.filter_eq_self.mpr ?_, List.nil_append]
    intro a ha
    have := (List.mem_range'_1.mp ha).1
    simpa using this
  refine ⟨h1, h2, fun h6 => ?_⟩
  rw [h2 h6]
  constructor
  · rw [show List.range' 5 (max_steps - 5)
        = 5 :: List.range' 6 (max_steps - 5 - 1) from by
      rw [show max_steps - 5 = (max_steps - 5 - 1) + 1 from by omega]
      exact List.range'_succ 5 (max_steps - 5 - 1) 1]
    rfl
  · simp [List.length_range']

/-- Witness for the amended C7 theorem: a ten-step always-thinking run with
the flag never set injects the reminder at steps 5 through 9. -/
theorem c7_progress_check_repeats_witness :
    agentInjections (fun _ => NextAction.think) (fun _ => false) 10
      = [5, 6, 7, 8, 9] := by
  have h := (c7_progress_check_repeats (fun _ => NextAction.think)
      (fun _ => false) 10 (fun _ => rfl) (fun _ => rfl)).2.1 (by decide)
  rw [h]
  decide

/-- Counterexample to C7 as stated: the ten-step always-thinking run with
the flag never set injects the reminder five times, not exactly once. -/
theorem c7_claim_counterexample :
    (agentInjections (fun _ => NextAction.think) (fun _ => false) 10).length = 5
    ∧ (5 : Nat) ≠ 1 := by
  exact ⟨by decide, by decide⟩

/-! ### C8: the skill execution loop -/

theorem skillLoop_invariant (ev : Nat → SkillStepEv) :
    ∀ fuel st, st.steps ≤ 20 → st.errors ≤ 2 →
      (skillLoop ev fuel st).steps ≤ 20
      ∧ (skillLoop ev fuel st).errors ≤ 3
      ∧ (skillLoop ev fuel st).outputs = st.outputs := by
  intro fuel
  induction fuel with
  | zero => intro st h1 h2; exact ⟨h1, show st.errors ≤ 3 by omega, rfl⟩
  | succ fuel ih =>
    intro st h1 h2
    simp only [skillLoop]
    by_cases h20 : 20 ≤ st.steps
    · rw [if_pos h20]
      exact ⟨h1, show st.errors ≤ 3 by omega, rfl⟩
    · rw [if_neg h20]
      cases hev : ev st.steps with
      | complete =>
        simp only []
        exact ⟨show st.steps + 1 ≤ 20 by omega, show st.errors ≤ 3 by omega, trivial⟩
      | toolCalls files =>
        simp only []
        exact ih ⟨st.steps + 1, st.files_saved ++ files, st.outputs, st.errors⟩
          (show st.steps + 1 ≤ 20 by omega) h2
      | noCalls =>
        simp only []
        exact ih ⟨st.steps + 1, st.files_saved, st.outputs, st.errors⟩
          (show st.steps + 1 ≤ 20 by omega) h2
      | err =>
        simp only []
        by_cases h3 : 3 ≤ st.errors + 1
        · rw [if_pos h3]
          exact ⟨show st.steps + 1 ≤ 20 by omega, show st.errors + 1 ≤ 3 by omega,
            rfl⟩
        · rw [if_neg h3]
          exact ih ⟨st.steps + 1, st.files_saved, st.outputs, st.errors + 1⟩
            (show st.steps + 1 ≤ 20 by omega) (show st.errors + 1 ≤ 2 by omega)

/-- C8: for every behaviour of the per-step oracle, the skill execution
loop performs at most 20 steps, never accumulates more than three errors
(it breaks when the third is collected, so three errors force failure), and
the compiled success flag holds exactly when fewer than three errors
accumulated and at least one artifact was produced (the `outputs` list is
never extended by the loop, so saved files are the only artifacts). -/
theorem c8_skill_loop_bounds :
    (∀ ev, (execute_skill_loop ev).steps ≤ 20)
    ∧ (∀ ev, (execute_skill_loop ev).errors ≤ 3)
    ∧ (∀ ev, (execute_skill_loop ev).errors = 3 →
        skill_success (execute_skill_loop ev) = false)
    ∧ (∀ ev, skill_success (execute_skill_loop ev) = true
        ↔ ((execute_skill_loop ev).errors < 3
            ∧ (execute_skill_loop ev).files_saved ≠ [])) := by
  have key : ∀ ev, (execute_skill_loop ev).steps ≤ 20
      ∧ (execute_skill_loop ev).errors ≤ 3
      ∧ (execute_skill_loop ev).outputs = [] := by
    intro ev
    exact skillLoop_invariant ev 20 ⟨0, [], [], 0⟩ (by decide) (by decide)
  refine ⟨fun ev => (key ev).1, fun ev => (key ev).2.1, fun ev h3 => ?_,
    fun ev => ?_⟩
  · unfold skill_success
    simp [h3]
  · unfold skill_success
    rw [(key ev).2.2]
    simp [List.length_pos]

end AgentsRepo
